import Mathlib

/-!
Verification of the `cdiff.py` diff colorizer: a shallow embedding of the
repository's source (the `Hunk`/`Diff` data model, the `DiffParser` state
machine, the traditional and side-by-side markup renderers) together with the
fragment of Python's `difflib` library (`SequenceMatcher`, `Differ`, `_mdiff`)
that `Hunk.mdiff` delegates to, and proofs about the behaviour of the embedded
code.
-/

namespace Cdiff

/-! ### Python string primitives

Small total models of the Python string operations used by the source.  Lines
are modelled as `String`; operations that need character access go through
`String.data : List Char`.
-/

/-- Python `' ' * n`. -/
def spaces (n : Nat) : String := String.mk (List.replicate n ' ')

/-- Python `s[1:]`. -/
def strTail (s : String) : String := String.mk (s.data.drop 1)

/-- Python `s[2:]`. -/
def strDrop2 (s : String) : String := String.mk (s.data.drop 2)

/-- Python `s[0]`, with a default for the (never-exercised) empty case. -/
def firstCharD (s : String) (d : Char) : Char := s.data.headD d

/-- Python `s.startswith(pre)`. -/
def strStarts (s pre : String) : Bool := pre.data.isPrefixOf s.data

/-- Python `c.isspace()` restricted to the ASCII whitespace actually reachable
here (the tag strings fed to `rstrip` only ever contain characters copied from
diff text lines plus `' '`, `'-'`, `'+'`, `'^'`). -/
def pyIsSpace (c : Char) : Bool :=
  c = ' ' || c = '\t' || c = '\n' || c = '\r' || c = '\x0b' || c = '\x0c'

/-- Python `s.lstrip(chars)` on char lists: remove leading characters that
belong to the set `junk`. -/
def lstripSet (junk : List Char) (cs : List Char) : List Char :=
  cs.dropWhile (fun c => junk.contains c)

/-- Python `s.rstrip(chars)` on char lists. -/
def rstripSet (junk : List Char) (cs : List Char) : List Char :=
  (lstripSet junk cs.reverse).reverse

/-- Python `s.strip(chars)` on char lists. -/
def stripSet (junk : List Char) (cs : List Char) : List Char :=
  rstripSet junk (lstripSet junk cs)

/-- Python `s.strip('\x00\x01')` as used by `markup_traditional`. -/
def stripMarkerEnds (s : String) : String :=
  String.mk (stripSet ['\x00', '\x01'] s.data)

/-- Python `s.rstrip()` (whitespace) on char lists. -/
def rstripWs (cs : List Char) : List Char :=
  (cs.reverse.dropWhile pyIsSpace).reverse

/-- Python `s.replace(pat, rep)` on char lists, as a structurally recursive
scan: after emitting a replacement the remaining `pat.length - 1` characters
of the matched occurrence are skipped via the counter (leftmost,
non-overlapping; `pat` is never empty at any call site). -/
def listReplaceAux (pat rep : List Char) : Nat → List Char → List Char
  | _, [] => []
  | n + 1, _ :: cs => listReplaceAux pat rep n cs
  | 0, c :: cs =>
    if pat.isPrefixOf (c :: cs) ∧ pat ≠ [] then
      rep ++ listReplaceAux pat rep (pat.length - 1) cs
    else
      c :: listReplaceAux pat rep 0 cs

def listReplace (pat rep cs : List Char) : List Char :=
  listReplaceAux pat rep 0 cs

/-- Python `s.replace(pat, rep)` on strings. -/
def pyReplace (s pat rep : String) : String :=
  String.mk (listReplace pat.data rep.data s.data)

/-! ### ANSI escape stripping

`markup_side_by_side._fit_width` measures the visible width of a column with
`re.sub(r'\x1b\[(1;)?\d{1,2}m', '', markup)`.  The scanner below implements
exactly that pattern (with the regex engine's greedy matching and
backtracking). -/

/-- Match the `(1;)?\d{1,2}m` tail of the escape pattern; returns the number of
characters consumed. -/
def ansiDigitsThenM (cs : List Char) : Option Nat :=
  match cs with
  | c1 :: c2 :: rest =>
    if c1.isDigit && decide (c2 = 'm') then some 2
    else if c1.isDigit && c2.isDigit && decide (rest.head? = some 'm') then some 3
    else none
  | _ => none

/-- Match `(1;)?\d{1,2}m`, preferring the `1;` alternative first as the regex
engine does. -/
def ansiAfterBracket (cs : List Char) : Option Nat :=
  if cs.take 2 = ['1', ';'] then
    match ansiDigitsThenM (cs.drop 2) with
    | some n => some (2 + n)
    | none => ansiDigitsThenM cs
  else ansiDigitsThenM cs

/-- Match `\[(1;)?\d{1,2}m` after an ESC character. -/
def ansiEscLen (cs : List Char) : Option Nat :=
  if cs.head? = some '[' then (ansiAfterBracket cs.tail).map (· + 1) else none

/-- Remove every occurrence of `\x1b\[(1;)?\d{1,2}m` from a char list
(structurally recursive scan; the counter skips the remainder of a matched
escape sequence). -/
def stripAnsiAux : Nat → List Char → List Char
  | _, [] => []
  | n + 1, _ :: cs => stripAnsiAux n cs
  | 0, c :: rest =>
    if c = '\x1b' then
      match ansiEscLen rest with
      | some n => stripAnsiAux n rest
      | none => c :: stripAnsiAux 0 rest
    else c :: stripAnsiAux 0 rest

def stripAnsiL (cs : List Char) : List Char := stripAnsiAux 0 cs

/-- `re.sub(r'\x1b\[(1;)?\d{1,2}m', '', s)`. -/
def stripAnsi (s : String) : String := String.mk (stripAnsiL s.data)

/-! ### Colors (`COLORS`, `ansi_code`, `colorize`) -/

/-- The `COLORS` table (`COLORS.get(color, '')`). -/
def ansi_code (color : String) : String :=
  if color = "reset" then "\x1b[0m"
  else if color = "underline" then "\x1b[4m"
  else if color = "reverse" then "\x1b[7m"
  else if color = "red" then "\x1b[31m"
  else if color = "green" then "\x1b[32m"
  else if color = "yellow" then "\x1b[33m"
  else if color = "blue" then "\x1b[34m"
  else if color = "magenta" then "\x1b[35m"
  else if color = "cyan" then "\x1b[36m"
  else if color = "lightred" then "\x1b[1;31m"
  else if color = "lightgreen" then "\x1b[1;32m"
  else if color = "lightyellow" then "\x1b[1;33m"
  else if color = "lightblue" then "\x1b[1;34m"
  else if color = "lightmagenta" then "\x1b[1;35m"
  else if color = "lightcyan" then "\x1b[1;36m"
  else ""

/-- `colorize(text, start_color, end_color='reset')`. -/
def colorize (text start_color : String) (end_color : String := "reset") : String :=
  ansi_code start_color ++ text ++ ansi_code end_color

/-! ### Data model (`Hunk`, `Diff`) -/

/-- `Hunk`: a hunk header plus the appended `(attr, line)` pairs, where
`attr` is `'-'` (old), `'+'` (new) or `' '` (common). -/
structure Hunk where
  hunk_header : String
  hunk_list : List (Char × String)
deriving DecidableEq, Repr

def Hunk.get_header (h : Hunk) : String := h.hunk_header

/-- `Hunk.append(attr, line)`. -/
def Hunk.append (h : Hunk) (attr : Char) (line : String) : Hunk :=
  { h with hunk_list := h.hunk_list ++ [(attr, line)] }

/-- `Hunk._get_old_text`: the lines whose attr is not `'+'`. -/
def Hunk.get_old_text (h : Hunk) : List String :=
  (h.hunk_list.filter (fun p => p.1 ≠ '+')).map Prod.snd

/-- `Hunk._get_new_text`: the lines whose attr is not `'-'`. -/
def Hunk.get_new_text (h : Hunk) : List String :=
  (h.hunk_list.filter (fun p => p.1 ≠ '-')).map Prod.snd

/-- `Diff`: headers, path lines, hunks. -/
structure Diff where
  headers : List String
  old_path : String
  new_path : String
  hunks : List Hunk
deriving DecidableEq, Repr

/-! ### Line classification (`Udiff` static predicates) -/

namespace Udiff

def is_old_path (line : String) : Bool := strStarts line "--- "

def is_new_path (line : String) : Bool := strStarts line "+++ "

def is_hunk_header (line : String) : Bool := strStarts line "@@ -"

def is_old (line : String) : Bool := strStarts line "-" && !is_old_path line

def is_new (line : String) : Bool := strStarts line "+" && !is_new_path line

def is_common (line : String) : Bool := strStarts line " "

def is_eof (line : String) : Bool := strStarts line "\\"

/-- `re.match(r'^[^+@\\ -]', line)`: the first character exists and is none of
`+`, `@`, `\`, space, `-`. -/
def is_header (line : String) : Bool :=
  match line.data with
  | [] => false
  | c :: _ => !(c = '+' || c = '@' || c = '\\' || c = ' ' || c = '-')

end Udiff

/-! ### The parser (`DiffParser._parse_udiff`)

The Python loop mutates local variables `headers`/`old_path`/`new_path`/
`hunks`/`hunk` and sometimes repeats an iteration without consuming the head
line (the emit-and-reset branches and the hunk-close branch).  The embedding
passes that state explicitly and recurses; the non-consuming branches recurse
on the same stream with a state of strictly smaller rank.

`AssertionError` (each `assert`) and the `RuntimeError('unknown patch format
...')` raises both abort the whole parse; `DiffParser.__init__` surfaces them
as the "invalid patch format" failure, modelled as `malformedPatch`.  The
format sniff failure (`'unknown diff type'`) is `unsupportedFormat`. -/

inductive ParseError where
  | unsupportedFormat
  | malformedPatch
deriving DecidableEq, Repr

/-- The parser's mutable local state. -/
structure PState where
  headers : List String
  old_path : Option String
  new_path : Option String
  hunks : List Hunk
  hunk : Option Hunk
deriving DecidableEq, Repr

def emptyPState : PState := ⟨[], none, none, [], none⟩

/-- Rank used for termination: the non-consuming branches strictly decrease
it while leaving the stream unchanged. -/
def prank (st : PState) : Nat :=
  (if st.old_path.isSome then 1 else 0) + (if st.hunk.isSome then 1 else 0)

def parse_udiff : List String → PState → Except ParseError (List Diff)
  | [], st =>
    -- "The last patch"
    let hunks := match st.hunk with
      | some hk => st.hunks ++ [hk]
      | none => st.hunks
    match st.old_path with
    | some op =>
      match st.new_path with
      | some np => .ok [⟨st.headers, op, np, hunks⟩]
      | none => .error .malformedPatch
    | none =>
      if st.headers ≠ [] then .error .malformedPatch else .ok []
  | line :: rest, st =>
    if Udiff.is_header line then
      if st.headers ≠ [] ∧ st.old_path.isSome then
        match st.old_path, st.new_path, st.hunk with
        | some op, some np, some hk =>
          (parse_udiff (line :: rest) emptyPState).map
            (⟨st.headers, op, np, st.hunks ++ [hk]⟩ :: ·)
        | _, _, _ => .error .malformedPatch
      else
        parse_udiff rest { st with headers := st.headers ++ [line] }
    else if Udiff.is_old_path line then
      match hop : st.old_path with
      | some op =>
        match st.new_path, st.hunk with
        | some np, some hk =>
          (parse_udiff (line :: rest) emptyPState).map
            (⟨st.headers, op, np, st.hunks ++ [hk]⟩ :: ·)
        | _, _ => .error .malformedPatch
      | none =>
        parse_udiff rest { st with old_path := some line }
    else if Udiff.is_new_path line then
      if st.old_path.isSome ∧ st.new_path = none then
        parse_udiff rest { st with new_path := some line }
      else .error .malformedPatch
    else if Udiff.is_hunk_header line then
      if st.old_path.isSome ∧ st.new_path.isSome then
        match hh : st.hunk with
        | some hk =>
          parse_udiff (line :: rest) { st with hunks := st.hunks ++ [hk], hunk := none }
        | none =>
          parse_udiff rest { st with hunk := some ⟨line, []⟩ }
      else .error .malformedPatch
    else if Udiff.is_old line || Udiff.is_new line || Udiff.is_common line then
      if st.old_path.isSome ∧ st.new_path.isSome then
        match st.hunk with
        | some hk =>
          parse_udiff rest { st with hunk := some (hk.append (firstCharD line ' ') (strTail line)) }
        | none => .error .malformedPatch
      else .error .malformedPatch
    else if Udiff.is_eof line then
      parse_udiff rest st
    else
      .error .malformedPatch
termination_by stream st => 2 * stream.length + prank st
decreasing_by all_goals first
  | (simp_all [prank, emptyPState]; omega)
  | simp_all [prank, emptyPState]
  | omega

/-- A fuel-indexed copy of `parse_udiff` with the identical body, structurally
recursive in the fuel so that concrete runs reduce definitionally; equal to
`parse_udiff` whenever the fuel exceeds the termination measure
(`parse_udiff_eq_fuel`). -/
def parseUdiffFuel : Nat → List String → PState → Except ParseError (List Diff)
  | 0, _, _ => .error .malformedPatch
  | _ + 1, [], st =>
    let hunks := match st.hunk with
      | some hk => st.hunks ++ [hk]
      | none => st.hunks
    match st.old_path with
    | some op =>
      match st.new_path with
      | some np => .ok [⟨st.headers, op, np, hunks⟩]
      | none => .error .malformedPatch
    | none =>
      if st.headers ≠ [] then .error .malformedPatch else .ok []
  | fuel + 1, line :: rest, st =>
    if Udiff.is_header line then
      if st.headers ≠ [] ∧ st.old_path.isSome then
        match st.old_path, st.new_path, st.hunk with
        | some op, some np, some hk =>
          (parseUdiffFuel fuel (line :: rest) emptyPState).map
            (⟨st.headers, op, np, st.hunks ++ [hk]⟩ :: ·)
        | _, _, _ => .error .malformedPatch
      else
        parseUdiffFuel fuel rest { st with headers := st.headers ++ [line] }
    else if Udiff.is_old_path line then
      match st.old_path with
      | some op =>
        match st.new_path, st.hunk with
        | some np, some hk =>
          (parseUdiffFuel fuel (line :: rest) emptyPState).map
            (⟨st.headers, op, np, st.hunks ++ [hk]⟩ :: ·)
        | _, _ => .error .malformedPatch
      | none =>
        parseUdiffFuel fuel rest { st with old_path := some line }
    else if Udiff.is_new_path line then
      if st.old_path.isSome ∧ st.new_path = none then
        parseUdiffFuel fuel rest { st with new_path := some line }
      else .error .malformedPatch
    else if Udiff.is_hunk_header line then
      if st.old_path.isSome ∧ st.new_path.isSome then
        match st.hunk with
        | some hk =>
          parseUdiffFuel fuel (line :: rest) { st with hunks := st.hunks ++ [hk], hunk := none }
        | none =>
          parseUdiffFuel fuel rest { st with hunk := some ⟨line, []⟩ }
      else .error .malformedPatch
    else if Udiff.is_old line || Udiff.is_new line || Udiff.is_common line then
      if st.old_path.isSome ∧ st.new_path.isSome then
        match st.hunk with
        | some hk =>
          parseUdiffFuel fuel rest
            { st with hunk := some (hk.append (firstCharD line ' ') (strTail line)) }
        | none => .error .malformedPatch
      else .error .malformedPatch
    else if Udiff.is_eof line then
      parseUdiffFuel fuel rest st
    else
      .error .malformedPatch

set_option maxHeartbeats 2000000 in
theorem parse_udiff_eq_fuel :
    ∀ (fuel : Nat) (stream : List String) (st : PState),
      2 * stream.length + prank st < fuel →
      parseUdiffFuel fuel stream st = parse_udiff stream st := by
  intro fuel
  induction fuel with
  | zero => intro stream st h; omega
  | succ fuel ih =>
    intro stream st h
    match stream with
    | [] =>
      rw [parse_udiff]
      rfl
    | line :: rest =>
      obtain ⟨hds, opv, npv, hks, hkv⟩ := st
      simp only [List.length_cons, prank] at h
      rw [parse_udiff]
      show parseUdiffFuel (fuel + 1) (line :: rest) _ = _
      rw [parseUdiffFuel]
      rcases opv with _ | op <;> rcases npv with _ | np <;> rcases hkv with _ | hk <;>
        simp only [Option.isSome_some, Option.isSome_none, Bool.false_eq_true,
          and_false, and_true, if_false, reduceCtorEq] at h ⊢ <;>
        split_ifs <;>
        first
          | rfl
          | (refine ih _ _ ?_
             simp [prank, emptyPState] at h ⊢ <;> omega)
          | (refine congrArg _ (ih _ _ ?_)
             simp [prank, emptyPState] at h ⊢ <;> omega)

/-- `DiffParser.__init__`: sniff the first 10 lines for a `'+++ '` line, then
parse. -/
def parse (stream : List String) : Except ParseError (List Diff) :=
  if (stream.take 10).any (fun l => strStarts l "+++ ") then
    parse_udiff stream emptyPState
  else
    .error .unsupportedFormat

/-- Evaluate `parse` on a concrete stream through the fuel-indexed twin. -/
theorem parse_eval (stream : List String) :
    parse stream =
      (if (stream.take 10).any (fun l => strStarts l "+++ ") then
        parseUdiffFuel (2 * stream.length + 3) stream emptyPState
      else
        .error .unsupportedFormat) := by
  unfold parse
  split
  · rw [parse_udiff_eq_fuel]
    unfold prank emptyPState
    simp
  · rfl

end Cdiff

/-! ## The `difflib` fragment used by `Hunk.mdiff`

`Hunk.mdiff` calls `difflib._mdiff(old_text, new_text)`, which drives
`ndiff = Differ(None, IS_CHARACTER_JUNK).compare` on top of `SequenceMatcher`.
This section is a direct executable embedding of those functions (Python
3 `difflib`).  Similarity ratios, which Python computes in floating point,
are modelled as exact rationals; only order comparisons of ratios are ever
performed. -/

namespace Difflib

/-- Python `range(lo, hi)`. -/
def pyRange (lo hi : Nat) : List Nat := List.range' lo (hi - lo)

section Alist

variable {α : Type} {β : Type} [DecidableEq α]

/-- Association-list model of a Python dict: first-match lookup. -/
def alistGet (m : List (α × β)) (k : α) : Option β :=
  match m with
  | [] => none
  | (k', v) :: m' => if k' = k then some v else alistGet m' k

/-- `dict.get(k, d)`. -/
def alistGetD (m : List (α × β)) (k : α) (d : β) : β :=
  (alistGet m k).getD d

/-- `dict[k] = v` (update in place, or append a new key). -/
def alistSet (m : List (α × β)) (k : α) (v : β) : List (α × β) :=
  match m with
  | [] => [(k, v)]
  | (k', v') :: m' => if k' = k then (k', v) :: m' else (k', v') :: alistSet m' k v

theorem alistGetD_mem (m : List (α × β)) (k : α) (d : β) :
    alistGetD m k d = d ∨ (k, alistGetD m k d) ∈ m := by
  induction m with
  | nil => left; rfl
  | cons p m' ih =>
    obtain ⟨k', v⟩ := p
    by_cases h : k' = k
    · right; simp [alistGetD, alistGet, h]
    · rcases ih with h' | h'
      · left; simpa [alistGetD, alistGet, h] using h'
      · right; simp only [alistGetD, alistGet, h, if_false] at *
        exact List.mem_cons_of_mem _ h'

theorem alistSet_mem (m : List (α × β)) (k : α) (v : β) :
    ∀ p ∈ alistSet m k v, p = (k, v) ∨ p ∈ m := by
  induction m with
  | nil => intro p hp; simpa [alistSet] using hp
  | cons q m' ih =>
    obtain ⟨k', v'⟩ := q
    intro p hp
    by_cases h : k' = k
    · have hp' : p = (k, v) ∨ p ∈ m' := by simpa [alistSet, h] using hp
      rcases hp' with h1 | h1
      · left; exact h1
      · right; exact List.mem_cons_of_mem _ h1
    · have hp' : p = (k', v') ∨ p ∈ alistSet m' k v := by simpa [alistSet, h] using hp
      rcases hp' with h1 | h1
      · right; simp [h1]
      · rcases ih p h1 with h2 | h2
        · left; exact h2
        · right; exact List.mem_cons_of_mem _ h2

end Alist

section Matcher

variable {α : Type} [DecidableEq α] [Inhabited α]

/-- `__chain_b`, first phase: `b2j[x]` = increasing list of indices of `x`
in `b`. -/
def chainBRaw (b : List α) : List (α × List Nat) :=
  b.enum.foldl (fun m p => alistSet m p.2 (alistGetD m p.2 [] ++ [p.1])) []

/-- `__chain_b`: purge junk keys, then (for `autojunk` and `len(b) >= 200`)
purge popular keys. -/
def chainB (isjunk : α → Bool) (autojunk : Bool) (b : List α) : List (α × List Nat) :=
  let b2j := (chainBRaw b).filter (fun p => !isjunk p.1)
  let n := b.length
  if autojunk ∧ n ≥ 200 then
    let ntest := n / 100 + 1
    b2j.filter (fun p => !(decide (p.2.length > ntest)))
  else b2j

/-- The running `(besti, bestj, bestsize)` of `find_longest_match`. -/
structure FlmState where
  besti : Nat
  bestj : Nat
  bestsize : Nat
deriving DecidableEq, Repr

/-- `k = newj2len[j] = j2len.get(j-1, 0) + 1`; Python's lookup of key `-1`
when `j = 0` always misses, hence the explicit zero case. -/
def flmK (j2len : List (Nat × Nat)) (j : Nat) : Nat :=
  (if j = 0 then 0 else alistGetD j2len (j - 1) 0) + 1

/-- The inner `for j in b2j.get(a[i], nothing)` loop of `find_longest_match`:
`continue` below `blo`, `break` at `bhi` (the index lists are increasing),
extend the run length from the previous row's `j2len`. -/
def flmInnerLoop (j2len : List (Nat × Nat)) (i blo bhi : Nat) :
    List Nat → List (Nat × Nat) × FlmState → List (Nat × Nat) × FlmState
  | [], acc => acc
  | j :: js, (newj2len, best) =>
    if j < blo then flmInnerLoop j2len i blo bhi js (newj2len, best)
    else if j ≥ bhi then (newj2len, best)
    else
      flmInnerLoop j2len i blo bhi js
        (alistSet newj2len j (flmK j2len j),
         if flmK j2len j > best.bestsize then
           FlmState.mk (i + 1 - flmK j2len j) (j + 1 - flmK j2len j) (flmK j2len j)
         else best)

/-- The `for i in range(alo, ahi)` loop of `find_longest_match`. -/
def flmRows (b2j : List (α × List Nat)) (a : List α) (alo ahi blo bhi : Nat) :
    List (Nat × Nat) × FlmState :=
  (pyRange alo ahi).foldl
    (fun acc i =>
      flmInnerLoop acc.1 i blo bhi (alistGetD b2j (a.getD i default) []) ([], acc.2))
    ([], ⟨alo, blo, 0⟩)

/-- One of the four extension `while` loops of `find_longest_match`, extending
downwards (`junkFlag` selects the junk or the non-junk phase); structurally
recursive in `besti`, which the loop guard keeps positive. -/
def extendLo (isjunk : α → Bool) (junkFlag : Bool) (a b : List α) (alo blo : Nat) :
    Nat → Nat → Nat → FlmState
  | 0, bestj, bestsize => ⟨0, bestj, bestsize⟩
  | besti + 1, bestj, bestsize =>
    if besti + 1 > alo ∧ bestj > blo ∧
        isjunk (b.getD (bestj - 1) default) = junkFlag ∧
        a.getD (besti + 1 - 1) default = b.getD (bestj - 1) default then
      extendLo isjunk junkFlag a b alo blo besti (bestj - 1) (bestsize + 1)
    else ⟨besti + 1, bestj, bestsize⟩

/-- Extension upwards, structurally recursive in the remaining room
`ahi - (besti + bestsize)`, which the wrapper `extendHi` supplies exactly: the
loop guard `besti + bestsize < ahi` fails exactly when the room is `0`, and
each iteration shrinks the room by one. -/
def extendHiAux (isjunk : α → Bool) (junkFlag : Bool) (a b : List α) (ahi bhi : Nat)
    (besti bestj : Nat) : Nat → Nat → FlmState
  | 0, bestsize => ⟨besti, bestj, bestsize⟩
  | room + 1, bestsize =>
    if besti + bestsize < ahi ∧ bestj + bestsize < bhi ∧
        isjunk (b.getD (bestj + bestsize) default) = junkFlag ∧
        a.getD (besti + bestsize) default = b.getD (bestj + bestsize) default then
      extendHiAux isjunk junkFlag a b ahi bhi besti bestj room (bestsize + 1)
    else ⟨besti, bestj, bestsize⟩

def extendHi (isjunk : α → Bool) (junkFlag : Bool) (a b : List α) (ahi bhi : Nat)
    (besti bestj bestsize : Nat) : FlmState :=
  extendHiAux isjunk junkFlag a b ahi bhi besti bestj (ahi - (besti + bestsize)) bestsize

/-- `find_longest_match(alo, ahi, blo, bhi)`.  `isbjunk` membership in
`self.bjunk` is tested only on elements of `b`, for which it coincides with
`isjunk` itself. -/
def find_longest_match (isjunk : α → Bool) (b2j : List (α × List Nat)) (a b : List α)
    (alo ahi blo bhi : Nat) : FlmState :=
  let st := (flmRows b2j a alo ahi blo bhi).2
  let st := extendLo isjunk false a b alo blo st.besti st.bestj st.bestsize
  let st := extendHi isjunk false a b ahi bhi st.besti st.bestj st.bestsize
  let st := extendLo isjunk true a b alo blo st.besti st.bestj st.bestsize
  extendHi isjunk true a b ahi bhi st.besti st.bestj st.bestsize

/-- Invariant on a `j2len` map after processing row `i`: every recorded run
ends in `[blo, bhi)`, fits above `blo`, and is no longer than `bound` rows. -/
def J2Inv (blo bhi bound : Nat) (m : List (Nat × Nat)) : Prop :=
  ∀ p ∈ m, blo ≤ p.1 ∧ p.1 < bhi ∧ p.2 ≤ p.1 + 1 - blo ∧ p.2 ≤ bound

/-- Invariant on the running best match of `find_longest_match`. -/
def BestInv (alo ahi blo bhi : Nat) (st : FlmState) : Prop :=
  (st.bestsize = 0 ∧ st.besti = alo ∧ st.bestj = blo) ∨
  (alo ≤ st.besti ∧ st.besti + st.bestsize ≤ ahi ∧
   blo ≤ st.bestj ∧ st.bestj + st.bestsize ≤ bhi)

theorem flmInnerLoop_inv (alo ahi blo bhi i : Nat) (hi1 : alo ≤ i) (hi2 : i < ahi)
    (j2len : List (Nat × Nat)) (hj : J2Inv blo bhi (i - alo) j2len) :
    ∀ (js : List Nat) (acc : List (Nat × Nat) × FlmState),
      J2Inv blo bhi (i + 1 - alo) acc.1 → BestInv alo ahi blo bhi acc.2 →
      J2Inv blo bhi (i + 1 - alo) (flmInnerLoop j2len i blo bhi js acc).1 ∧
      BestInv alo ahi blo bhi (flmInnerLoop j2len i blo bhi js acc).2 := by
  intro js
  induction js with
  | nil => intro acc h1 h2; exact ⟨h1, h2⟩
  | cons j js ih =>
    rintro ⟨newj2len, best⟩ h1 h2
    by_cases hlt : j < blo
    · simpa [flmInnerLoop, hlt] using ih (newj2len, best) h1 h2
    · by_cases hge : j ≥ bhi
      · simpa [flmInnerLoop, hlt, hge] using ⟨h1, h2⟩
      · have hblo : blo ≤ j := Nat.le_of_not_lt hlt
        have hbhi : j < bhi := Nat.lt_of_not_le hge
        have hk1 : flmK j2len j ≤ j + 1 - blo ∧ flmK j2len j ≤ i + 1 - alo := by
          by_cases hj0 : j = 0
          · have hblo0 : blo = 0 := by omega
            have hk : flmK j2len j = 1 := by simp [flmK, hj0]
            omega
          · rcases alistGetD_mem j2len (j - 1) 0 with hv | hv
            · have hk : flmK j2len j = 1 := by simp [flmK, hj0, hv]
              omega
            · have hm := hj _ hv
              have hk : flmK j2len j = alistGetD j2len (j - 1) 0 + 1 := by
                simp [flmK, hj0]
              simp only at hm
              omega
        have hmap : J2Inv blo bhi (i + 1 - alo) (alistSet newj2len j (flmK j2len j)) := by
          intro p hp
          rcases alistSet_mem newj2len j (flmK j2len j) p hp with hpe | hpm
          · rw [hpe]; exact ⟨hblo, hbhi, hk1.1, hk1.2⟩
          · exact h1 p hpm
        have hbest : BestInv alo ahi blo bhi
            (if flmK j2len j > best.bestsize then
              FlmState.mk (i + 1 - flmK j2len j) (j + 1 - flmK j2len j) (flmK j2len j)
             else best) := by
          by_cases hgt : flmK j2len j > best.bestsize
          · rw [if_pos hgt]
            right
            have hkpos : 1 ≤ flmK j2len j := by simp [flmK]
            refine ⟨?_, ?_, ?_, ?_⟩ <;> simp only <;> omega
          · rw [if_neg hgt]; exact h2
        have heq : flmInnerLoop j2len i blo bhi (j :: js) (newj2len, best) =
            flmInnerLoop j2len i blo bhi js
              (alistSet newj2len j (flmK j2len j),
               if flmK j2len j > best.bestsize then
                 FlmState.mk (i + 1 - flmK j2len j) (j + 1 - flmK j2len j) (flmK j2len j)
               else best) := by
          simp [flmInnerLoop, hlt, hge]
        rw [heq]
        exact ih _ hmap hbest

theorem flmRows_aux (b2j : List (α × List Nat)) (a : List α) (alo ahi blo bhi : Nat) :
    ∀ (n s : Nat), alo ≤ s → s + n ≤ ahi →
      ∀ (acc : List (Nat × Nat) × FlmState),
        J2Inv blo bhi (s - alo) acc.1 → BestInv alo ahi blo bhi acc.2 →
        BestInv alo ahi blo bhi
          (((List.range' s n).foldl
            (fun acc i =>
              flmInnerLoop acc.1 i blo bhi (alistGetD b2j (a.getD i default) []) ([], acc.2))
            acc).2) := by
  intro n
  induction n with
  | zero => intro s _ _ acc _ h2; simpa using h2
  | succ n ih =>
    intro s hs1 hs2 acc h1 h2
    rw [List.range'_succ, List.foldl_cons]
    have hstep := flmInnerLoop_inv alo ahi blo bhi s hs1 (by omega) acc.1 h1
      (alistGetD b2j (a.getD s default) []) ([], acc.2)
      (by intro p hp; simp at hp) h2
    exact ih (s + 1) (by omega) (by omega) _
      (by
        have := hstep.1
        intro p hp
        have h := this p hp
        exact ⟨h.1, h.2.1, h.2.2.1, by omega⟩)
      hstep.2

theorem flmRows_inv (b2j : List (α × List Nat)) (a : List α) (alo ahi blo bhi : Nat) :
    BestInv alo ahi blo bhi (flmRows b2j a alo ahi blo bhi).2 := by
  by_cases h : alo ≤ ahi
  · exact flmRows_aux b2j a alo ahi blo bhi (ahi - alo) alo le_rfl (by omega) _
      (by intro p hp; simp at hp) (Or.inl ⟨rfl, rfl, rfl⟩)
  · have : ahi - alo = 0 := by omega
    unfold flmRows pyRange
    rw [this]
    exact Or.inl ⟨rfl, rfl, rfl⟩

theorem extendLo_inv (isjunk : α → Bool) (junkFlag : Bool) (a b : List α)
    (alo blo ahi bhi : Nat) :
    ∀ (besti bestj bestsize : Nat),
      BestInv alo ahi blo bhi ⟨besti, bestj, bestsize⟩ →
      BestInv alo ahi blo bhi (extendLo isjunk junkFlag a b alo blo besti bestj bestsize) := by
  intro besti
  induction besti with
  | zero => intro bestj bestsize h; simpa [extendLo] using h
  | succ besti ih =>
    intro bestj bestsize h
    rw [extendLo]
    by_cases hc : besti + 1 > alo ∧ bestj > blo ∧
        isjunk (b.getD (bestj - 1) default) = junkFlag ∧
        a.getD (besti + 1 - 1) default = b.getD (bestj - 1) default
    · rw [if_pos hc]
      refine ih _ _ ?_
      obtain ⟨hc1, hc2, -, -⟩ := hc
      rcases h with ⟨h1, h2, h3⟩ | ⟨h1, h2, h3, h4⟩
      · simp only at h1 h2 h3
        exact absurd hc2 (by omega)
      · simp only at h1 h2 h3 h4
        right; dsimp only; refine ⟨by omega, by omega, by omega, by omega⟩
    · rw [if_neg hc]
      exact h

theorem extendHiAux_inv (isjunk : α → Bool) (junkFlag : Bool) (a b : List α)
    (alo blo ahi bhi besti bestj : Nat) :
    ∀ (room bestsize : Nat),
      BestInv alo ahi blo bhi ⟨besti, bestj, bestsize⟩ →
      BestInv alo ahi blo bhi
        (extendHiAux isjunk junkFlag a b ahi bhi besti bestj room bestsize) := by
  intro room
  induction room with
  | zero => intro bestsize h; simpa [extendHiAux] using h
  | succ room ih =>
    intro bestsize h
    rw [extendHiAux]
    by_cases hc : besti + bestsize < ahi ∧ bestj + bestsize < bhi ∧
        isjunk (b.getD (bestj + bestsize) default) = junkFlag ∧
        a.getD (besti + bestsize) default = b.getD (bestj + bestsize) default
    · rw [if_pos hc]
      refine ih _ ?_
      obtain ⟨hc1, hc2, -, -⟩ := hc
      rcases h with ⟨h1, h2, h3⟩ | ⟨h1, h2, h3, h4⟩
      · simp only at h1 h2 h3
        right; dsimp only; refine ⟨by omega, by omega, by omega, by omega⟩
      · simp only at h1 h2 h3 h4
        right; dsimp only; refine ⟨by omega, by omega, by omega, by omega⟩
    · rw [if_neg hc]
      exact h

theorem extendHi_inv (isjunk : α → Bool) (junkFlag : Bool) (a b : List α)
    (alo blo ahi bhi : Nat) (besti bestj bestsize : Nat) :
    BestInv alo ahi blo bhi ⟨besti, bestj, bestsize⟩ →
    BestInv alo ahi blo bhi (extendHi isjunk junkFlag a b ahi bhi besti bestj bestsize) :=
  fun h => extendHiAux_inv isjunk junkFlag a b alo blo ahi bhi besti bestj _ _ h

/-- The bounds guaranteed by `find_longest_match`: a nonempty best block lies
inside the requested ranges. -/
theorem find_longest_match_inv (isjunk : α → Bool) (b2j : List (α × List Nat))
    (a b : List α) (alo ahi blo bhi : Nat) :
    BestInv alo ahi blo bhi (find_longest_match isjunk b2j a b alo ahi blo bhi) := by
  unfold find_longest_match
  have h0 := flmRows_inv b2j a alo ahi blo bhi
  have h1 := extendLo_inv isjunk false a b alo blo ahi bhi _ _ _ h0
  have h2 := extendHi_inv isjunk false a b alo blo ahi bhi _ _ _ h1
  have h3 := extendLo_inv isjunk true a b alo blo ahi bhi _ _ _ h2
  exact extendHi_inv isjunk true a b alo blo ahi bhi _ _ _ h3

/-- The recursive core of `get_matching_blocks`.  The Python implementation
processes a work queue and sorts the collected blocks at the end; since the
sub-ranges on either side of a found block are independent, this is the same
list of blocks, and the recursive in-order traversal produces them already in
the sorted order. -/
def matchBlocksRec (isjunk : α → Bool) (b2j : List (α × List Nat)) (a b : List α)
    (alo ahi blo bhi : Nat) : List (Nat × Nat × Nat) :=
  let st := find_longest_match isjunk b2j a b alo ahi blo bhi
  if hk : st.bestsize = 0 then []
  else
    (if h1 : alo < st.besti ∧ blo < st.bestj then
      matchBlocksRec isjunk b2j a b alo st.besti blo st.bestj
     else []) ++
    [(st.besti, st.bestj, st.bestsize)] ++
    (if h2 : st.besti + st.bestsize < ahi ∧ st.bestj + st.bestsize < bhi then
      matchBlocksRec isjunk b2j a b (st.besti + st.bestsize) ahi (st.bestj + st.bestsize) bhi
     else [])
termination_by (ahi - alo) + (bhi - blo)
decreasing_by
  · unfold_let st at *
    rcases find_longest_match_inv isjunk b2j a b alo ahi blo bhi with h | h
    · exact absurd h.1 hk
    · omega
  · unfold_let st at *
    rcases find_longest_match_inv isjunk b2j a b alo ahi blo bhi with h | h
    · exact absurd h.1 hk
    · omega

/-- A fuel-indexed, structurally recursive copy of `matchBlocksRec`, equal to
it whenever the fuel exceeds the termination measure
(`matchBlocksFuel_spec`); used below so that concrete runs reduce
definitionally. -/
def matchBlocksFuel (isjunk : α → Bool) (b2j : List (α × List Nat)) (a b : List α) :
    Nat → Nat → Nat → Nat → Nat → List (Nat × Nat × Nat)
  | 0, _, _, _, _ => []
  | fuel + 1, alo, ahi, blo, bhi =>
    let st := find_longest_match isjunk b2j a b alo ahi blo bhi
    if st.bestsize = 0 then []
    else
      (if alo < st.besti ∧ blo < st.bestj then
        matchBlocksFuel isjunk b2j a b fuel alo st.besti blo st.bestj
       else []) ++
      [(st.besti, st.bestj, st.bestsize)] ++
      (if st.besti + st.bestsize < ahi ∧ st.bestj + st.bestsize < bhi then
        matchBlocksFuel isjunk b2j a b fuel (st.besti + st.bestsize) ahi
          (st.bestj + st.bestsize) bhi
       else [])

set_option maxHeartbeats 1000000 in
theorem matchBlocksFuel_spec (isjunk : α → Bool) (b2j : List (α × List Nat)) (a b : List α) :
    ∀ (fuel alo ahi blo bhi : Nat), (ahi - alo) + (bhi - blo) < fuel →
      matchBlocksFuel isjunk b2j a b fuel alo ahi blo bhi =
        matchBlocksRec isjunk b2j a b alo ahi blo bhi := by
  intro fuel
  induction fuel with
  | zero => intro alo ahi blo bhi h; omega
  | succ fuel ih =>
    intro alo ahi blo bhi h
    rw [matchBlocksRec, matchBlocksFuel]
    have hinv := find_longest_match_inv isjunk b2j a b alo ahi blo bhi
    generalize hst : find_longest_match isjunk b2j a b alo ahi blo bhi = st at hinv ⊢
    obtain ⟨bi, bj, bs⟩ := st
    simp only [BestInv] at hinv
    dsimp only
    by_cases hk : bs = 0
    · rw [dif_pos hk, if_pos hk]
    · rw [dif_neg hk, if_neg hk]
      rcases hinv with ⟨hz, -, -⟩ | ⟨h1, h2, h3, h4⟩
      · exact absurd hz hk
      · congr 1
        · congr 1
          by_cases hc : alo < bi ∧ blo < bj
          · rw [if_pos hc, dif_pos hc]
            refine ih _ _ _ _ ?_
            omega
          · rw [if_neg hc, dif_neg hc]
        · by_cases hc : bi + bs < ahi ∧ bj + bs < bhi
          · rw [if_pos hc, dif_pos hc]
            refine ih _ _ _ _ ?_
            omega
          · rw [if_neg hc, dif_neg hc]

/-- The adjacent-block collapsing pass of `get_matching_blocks`. -/
def collapseAdj : List (Nat × Nat × Nat) → Nat → Nat → Nat → List (Nat × Nat × Nat)
  | [], i1, j1, k1 => if k1 ≠ 0 then [(i1, j1, k1)] else []
  | (i2, j2, k2) :: rest, i1, j1, k1 =>
    if i1 + k1 = i2 ∧ j1 + k1 = j2 then collapseAdj rest i1 j1 (k1 + k2)
    else (if k1 ≠ 0 then [(i1, j1, k1)] else []) ++ collapseAdj rest i2 j2 k2

/-- `get_matching_blocks`, given the precomputed `b2j` of the matcher (through
the fuel twin, with fuel exceeding the measure, so the definition computes). -/
def get_matching_blocks (isjunk : α → Bool) (b2j : List (α × List Nat)) (a b : List α) :
    List (Nat × Nat × Nat) :=
  collapseAdj (matchBlocksFuel isjunk b2j a b (a.length + b.length + 1) 0 a.length 0 b.length)
    0 0 0 ++ [(a.length, b.length, 0)]

theorem get_matching_blocks_eq_rec (isjunk : α → Bool) (b2j : List (α × List Nat))
    (a b : List α) :
    get_matching_blocks isjunk b2j a b =
      collapseAdj (matchBlocksRec isjunk b2j a b 0 a.length 0 b.length) 0 0 0 ++
        [(a.length, b.length, 0)] := by
  unfold get_matching_blocks
  rw [matchBlocksFuel_spec isjunk b2j a b _ _ _ _ _ (by omega)]

/-- The opcode-building fold of `get_opcodes`. -/
def opcodeFold : List (Nat × Nat × Nat) → Nat → Nat → List (String × Nat × Nat × Nat × Nat)
  | [], _, _ => []
  | (ai, bj, size) :: rest, i, j =>
    let tag : String :=
      if i < ai ∧ j < bj then "replace"
      else if i < ai then "delete"
      else if j < bj then "insert"
      else ""
    (if tag ≠ "" then [(tag, i, ai, j, bj)] else []) ++
    (if size ≠ 0 then [("equal", ai, ai + size, bj, bj + size)] else []) ++
    opcodeFold rest (ai + size) (bj + size)

/-- `get_opcodes`, given the precomputed `b2j`. -/
def get_opcodes (isjunk : α → Bool) (b2j : List (α × List Nat)) (a b : List α) :
    List (String × Nat × Nat × Nat × Nat) :=
  opcodeFold (get_matching_blocks isjunk b2j a b) 0 0

/-! #### Ratios (modelled as exact rationals) -/

/-- `_calculate_ratio`. -/
def calcRatioQ (nmatches length : Nat) : ℚ :=
  if length ≠ 0 then mkRat (2 * nmatches) length else 1

/-- `SequenceMatcher.ratio()`: `2*M/T` with `M` the total size of the matching
blocks. -/
def ratioQ (isjunk : α → Bool) (autojunk : Bool) (a b : List α) : ℚ :=
  let blocks := get_matching_blocks isjunk (chainB isjunk autojunk b) a b
  calcRatioQ (blocks.foldl (fun s p => s + p.2.2) 0) (a.length + b.length)

/-- `fullbcount`: element multiplicities of `b`. -/
def countElems (b : List α) : List (α × Nat) :=
  b.foldl (fun m x => alistSet m x (alistGetD m x 0 + 1)) []

/-- The matching loop of `quick_ratio()`; `avail` values may go negative. -/
def quickRatioLoop (fullb : List (α × Nat)) :
    List α → List (α × Int) → Nat → Nat
  | [], _, mcount => mcount
  | x :: rest, avail, mcount =>
    let numb : Int :=
      match alistGet avail x with
      | some v => v
      | none => (alistGetD fullb x 0 : Nat)
    quickRatioLoop fullb rest (alistSet avail x (numb - 1))
      (if numb > 0 then mcount + 1 else mcount)

/-- `SequenceMatcher.quick_ratio()`. -/
def quickRatioQ (a b : List α) : ℚ :=
  calcRatioQ (quickRatioLoop (countElems b) a [] 0) (a.length + b.length)

/-- `SequenceMatcher.real_quick_ratio()`. -/
def realQuickRatioQ (a b : List α) : ℚ :=
  calcRatioQ (min a.length b.length) (a.length + b.length)

end Matcher

/-! ### `Differ` (`ndiff`)

`Hunk.mdiff` reaches `ndiff` with `linejunk=None` and
`charjunk=IS_CHARACTER_JUNK`; both junk settings are fixed here accordingly. -/

/-- `IS_CHARACTER_JUNK`: blank or tab. -/
def charJunk (c : Char) : Bool := c = ' ' || c = '\t'

/-- `linejunk=None`: no line is junk. -/
def lineJunk (_ : String) : Bool := false

/-- Char-level `ratio()` of the `_fancy_replace` cruncher
(`SequenceMatcher(charjunk)`, autojunk enabled). -/
def ratioChars (x y : String) : ℚ := ratioQ charJunk true x.data y.data

/-- Char-level `get_opcodes()` of the same cruncher. -/
def opcodesChars (x y : String) : List (String × Nat × Nat × Nat × Nat) :=
  get_opcodes charJunk (chainB charJunk true y.data) x.data y.data

/-- `Differ._dump(tag, x, lo, hi)`. -/
def dump (tag : String) (x : List String) (lo hi : Nat) : List String :=
  (pyRange lo hi).map (fun i => tag ++ " " ++ x.getD i "")

/-- `Differ._plain_replace` (the `assert alo < ahi and blo < bhi` always holds
at its call sites). -/
def plain_replace (a b : List String) (alo ahi blo bhi : Nat) : List String :=
  if bhi - blo < ahi - alo then
    dump "+" b blo bhi ++ dump "-" a alo ahi
  else
    dump "-" a alo ahi ++ dump "+" b blo bhi

/-- The state of the best-pair search loop in `_fancy_replace`. -/
structure FancyBest where
  best_ratio : ℚ
  best_i : Nat
  best_j : Nat
  eq_ij : Option (Nat × Nat)
deriving DecidableEq, Repr

/-- The `for j ... for i ...` search of `_fancy_replace`: remember the first
identical pair, and the best (by `ratio()`) non-identical pair above the
running threshold, using the quick upper bounds first exactly as the source
does. -/
def fancySearch (a b : List String) (alo ahi blo bhi : Nat) : FancyBest :=
  (pyRange blo bhi).foldl
    (fun st j =>
      let bj := b.getD j ""
      (pyRange alo ahi).foldl
        (fun st i =>
          let ai := a.getD i ""
          if ai = bj then
            if st.eq_ij = none then { st with eq_ij := some (i, j) } else st
          else if realQuickRatioQ ai.data bj.data > st.best_ratio ∧
              quickRatioQ ai.data bj.data > st.best_ratio ∧
              ratioChars ai bj > st.best_ratio then
            ⟨ratioChars ai bj, i, j, st.eq_ij⟩
          else st)
        st)
    ⟨mkRat 74 100, 0, 0, none⟩

/-- The fold that builds the `atags`/`btags` strings from the intraline
opcodes in `_fancy_replace`. -/
def buildTags (ops : List (String × Nat × Nat × Nat × Nat)) : List Char × List Char :=
  ops.foldl
    (fun acc op =>
      match op with
      | (tag, ai1, ai2, bj1, bj2) =>
        if tag = "replace" then
          (acc.1 ++ List.replicate (ai2 - ai1) '^', acc.2 ++ List.replicate (bj2 - bj1) '^')
        else if tag = "delete" then
          (acc.1 ++ List.replicate (ai2 - ai1) '-', acc.2)
        else if tag = "insert" then
          (acc.1, acc.2 ++ List.replicate (bj2 - bj1) '+')
        else
          (acc.1 ++ List.replicate (ai2 - ai1) ' ', acc.2 ++ List.replicate (bj2 - bj1) ' '))
    ([], [])

/-- `_keep_original_ws(s, tag_s)`. -/
def keep_original_ws (s tags : List Char) : List Char :=
  (s.zip tags).map (fun p => if p.2 = ' ' ∧ Cdiff.pyIsSpace p.1 then p.1 else p.2)

/-- `Differ._qformat(aline, bline, atags, btags)`. -/
def qformat (aline bline : String) (atags btags : List Char) : List String :=
  let atags := Cdiff.rstripWs (keep_original_ws aline.data atags)
  let btags := Cdiff.rstripWs (keep_original_ws bline.data btags)
  ["- " ++ aline] ++
  (if atags ≠ [] then ["? " ++ String.mk atags ++ "\n"] else []) ++
  ["+ " ++ bline] ++
  (if btags ≠ [] then ["? " ++ String.mk btags ++ "\n"] else [])

/-- Range facts about `fancySearch` needed for the recursion in
`_fancy_replace`: a best ratio that reached the cutoff, or a recorded
identical pair, lies inside the searched ranges. -/
def FancyInv (alo ahi blo bhi : Nat) (st : FancyBest) : Prop :=
  (st.best_ratio ≥ mkRat 3 4 → alo ≤ st.best_i ∧ st.best_i < ahi ∧ blo ≤ st.best_j ∧ st.best_j < bhi) ∧
  (∀ i j, st.eq_ij = some (i, j) → alo ≤ i ∧ i < ahi ∧ blo ≤ j ∧ j < bhi)

theorem mem_pyRange {i lo hi : Nat} (h : i ∈ pyRange lo hi) : lo ≤ i ∧ i < hi := by
  simp only [pyRange, List.mem_range'_1] at h
  omega

theorem fancySearch_inv (a b : List String) (alo ahi blo bhi : Nat) :
    FancyInv alo ahi blo bhi (fancySearch a b alo ahi blo bhi) := by
  unfold fancySearch
  refine List.foldlRecOn _ _ _ ?_ ?_
  · refine ⟨fun h => absurd h (by decide), fun i j h => by simp at h⟩
  · intro st hst j hj
    obtain ⟨hj1, hj2⟩ := mem_pyRange hj
    refine List.foldlRecOn _ _ _ hst ?_
    intro st' hst' i hi
    obtain ⟨hi1, hi2⟩ := mem_pyRange hi
    dsimp only
    by_cases he : a.getD i "" = b.getD j ""
    · rw [if_pos he]
      by_cases hn : st'.eq_ij = none
      · rw [if_pos hn]
        refine ⟨hst'.1, ?_⟩
        intro i' j' heq
        simp only [Option.some.injEq, Prod.mk.injEq] at heq
        obtain ⟨rfl, rfl⟩ := heq
        exact ⟨hi1, hi2, hj1, hj2⟩
      · rw [if_neg hn]; exact hst'
    · rw [if_neg he]
      by_cases hr : realQuickRatioQ (a.getD i "").data (b.getD j "").data > st'.best_ratio ∧
          quickRatioQ (a.getD i "").data (b.getD j "").data > st'.best_ratio ∧
          ratioChars (a.getD i "") (b.getD j "") > st'.best_ratio
      · rw [if_pos hr]
        refine ⟨fun _ => ⟨hi1, hi2, hj1, hj2⟩, ?_⟩
        intro i' j' heq
        exact hst'.2 i' j' heq
      · rw [if_neg hr]; exact hst'

mutual

/-- `Differ._fancy_replace`. -/
def fancy_replace (a b : List String) (alo ahi blo bhi : Nat) : List String :=
  let fs := fancySearch a b alo ahi blo bhi
  if hcut : fs.best_ratio < mkRat 3 4 then
    match heq : fs.eq_ij with
    | none => plain_replace a b alo ahi blo bhi
    | some (ei, ej) =>
      -- synch on the identical pair (eqi not cleared: yield '  ' + aelt)
      fancy_helper a b alo ei blo ej ++
      ["  " ++ a.getD ei ""] ++
      fancy_helper a b (ei + 1) ahi (ej + 1) bhi
  else
    -- a close pair: clear eqi and do intraline marking via _qformat
    let aelt := a.getD fs.best_i ""
    let belt := b.getD fs.best_j ""
    let tags := buildTags (opcodesChars aelt belt)
    fancy_helper a b alo fs.best_i blo fs.best_j ++
    qformat aelt belt tags.1 tags.2 ++
    fancy_helper a b (fs.best_i + 1) ahi (fs.best_j + 1) bhi
termination_by ((ahi - alo) + (bhi - blo), 0)
decreasing_by
  · have hinv := (fancySearch_inv a b alo ahi blo bhi).2 ei ej (by
      unfold_let fs at heq; exact heq)
    apply Prod.Lex.left
    omega
  · have hinv := (fancySearch_inv a b alo ahi blo bhi).2 ei ej (by
      unfold_let fs at heq; exact heq)
    apply Prod.Lex.left
    omega
  · have hinv := (fancySearch_inv a b alo ahi blo bhi).1 (by
      unfold_let fs at hcut; exact le_of_not_lt hcut)
    apply Prod.Lex.left
    omega
  · have hinv := (fancySearch_inv a b alo ahi blo bhi).1 (by
      unfold_let fs at hcut; exact le_of_not_lt hcut)
    apply Prod.Lex.left
    omega

/-- `Differ._fancy_helper`. -/
def fancy_helper (a b : List String) (alo ahi blo bhi : Nat) : List String :=
  if alo < ahi then
    if blo < bhi then fancy_replace a b alo ahi blo bhi
    else dump "-" a alo ahi
  else if blo < bhi then dump "+" b blo bhi
  else []
termination_by ((ahi - alo) + (bhi - blo), 1)
decreasing_by
  apply Prod.Lex.right
  omega

end

/-- A fuel-indexed, structurally recursive copy of the mutual pair
`fancy_replace` (tag `true`) / `fancy_helper` (tag `false`), equal to them
whenever the fuel dominates the recursion depth (`fancyFuel_spec`); used so
that concrete runs reduce definitionally. -/
def fancyFuel : Nat → Bool → List String → List String → Nat → Nat → Nat → Nat → List String
  | 0, _, _, _, _, _, _, _ => []
  | fuel + 1, true, a, b, alo, ahi, blo, bhi =>
    let fs := fancySearch a b alo ahi blo bhi
    if fs.best_ratio < mkRat 3 4 then
      match fs.eq_ij with
      | none => plain_replace a b alo ahi blo bhi
      | some (ei, ej) =>
        fancyFuel fuel false a b alo ei blo ej ++
        ["  " ++ a.getD ei ""] ++
        fancyFuel fuel false a b (ei + 1) ahi (ej + 1) bhi
    else
      let aelt := a.getD fs.best_i ""
      let belt := b.getD fs.best_j ""
      let tags := buildTags (opcodesChars aelt belt)
      fancyFuel fuel false a b alo fs.best_i blo fs.best_j ++
      qformat aelt belt tags.1 tags.2 ++
      fancyFuel fuel false a b (fs.best_i + 1) ahi (fs.best_j + 1) bhi
  | fuel + 1, false, a, b, alo, ahi, blo, bhi =>
    if alo < ahi then
      if blo < bhi then fancyFuel fuel true a b alo ahi blo bhi
      else dump "-" a alo ahi
    else if blo < bhi then dump "+" b blo bhi
    else []

theorem fancyFuel_spec (a b : List String) : ∀ fuel alo ahi blo bhi,
    (2 * ((ahi - alo) + (bhi - blo)) < fuel →
      fancyFuel fuel true a b alo ahi blo bhi = fancy_replace a b alo ahi blo bhi) ∧
    (2 * ((ahi - alo) + (bhi - blo)) + 1 < fuel →
      fancyFuel fuel false a b alo ahi blo bhi = fancy_helper a b alo ahi blo bhi) := by
  intro fuel
  induction fuel with
  | zero =>
    intro alo ahi blo bhi
    exact ⟨fun h => absurd h (by omega), fun h => absurd h (by omega)⟩
  | succ fuel ih =>
    intro alo ahi blo bhi
    constructor
    · intro h
      rw [fancy_replace]
      simp only [fancyFuel]
      have hinv := fancySearch_inv a b alo ahi blo bhi
      generalize hfs : fancySearch a b alo ahi blo bhi = fs at hinv ⊢
      obtain ⟨br, bi, bj, eij⟩ := fs
      dsimp only
      by_cases hc : br < mkRat 3 4
      · rw [if_pos hc, dif_pos hc]
        rcases eij with _ | ⟨ei, ej⟩
        · rfl
        · have he := hinv.2 ei ej rfl
          dsimp only
          congr 1
          · congr 1
            refine (ih alo ei blo ej).2 ?_
            omega
          · refine (ih (ei + 1) ahi (ej + 1) bhi).2 ?_
            omega
      · rw [if_neg hc, dif_neg hc]
        have hb := hinv.1 (le_of_not_lt hc)
        dsimp only at hb
        congr 1
        · congr 1
          refine (ih alo bi blo bj).2 ?_
          omega
        · refine (ih (bi + 1) ahi (bj + 1) bhi).2 ?_
          omega
    · intro h
      rw [fancy_helper]
      simp only [fancyFuel]
      by_cases h1 : alo < ahi
      · rw [if_pos h1, if_pos h1]
        by_cases h2 : blo < bhi
        · rw [if_pos h2, if_pos h2]
          refine (ih alo ahi blo bhi).1 ?_
          omega
        · rw [if_neg h2, if_neg h2]
      · rw [if_neg h1, if_neg h1]

/-- `Differ.compare` = `ndiff` with `linejunk=None`,
`charjunk=IS_CHARACTER_JUNK`.  The final branch is the `'equal'` tag (the
`raise` for unknown tags is unreachable: `get_opcodes` emits no other tag). -/
def compare (a b : List String) : List String :=
  (get_opcodes lineJunk (chainB lineJunk true b) a b).bind
    (fun op =>
      match op with
      | (tag, alo, ahi, blo, bhi) =>
        if tag = "replace" then fancy_replace a b alo ahi blo bhi
        else if tag = "delete" then dump "-" a alo ahi
        else if tag = "insert" then dump "+" b blo bhi
        else dump " " a alo ahi)

/-- `compare` with the `replace` branch routed through `fancyFuel` at a
provably-sufficient fuel, so that concrete runs reduce definitionally. -/
def compareF (a b : List String) : List String :=
  (get_opcodes lineJunk (chainB lineJunk true b) a b).bind
    (fun op =>
      match op with
      | (tag, alo, ahi, blo, bhi) =>
        if tag = "replace" then
          fancyFuel (2 * ((ahi - alo) + (bhi - blo)) + 1) true a b alo ahi blo bhi
        else if tag = "delete" then dump "-" a alo ahi
        else if tag = "insert" then dump "+" b blo bhi
        else dump " " a alo ahi)

theorem compare_eq_compareF (a b : List String) : compare a b = compareF a b := by
  unfold compare compareF
  refine congrArg _ (funext fun op => ?_)
  obtain ⟨tag, alo, ahi, blo, bhi⟩ := op
  dsimp only
  split_ifs
  · exact ((fancyFuel_spec a b _ alo ahi blo bhi).1 (by omega)).symm
  · rfl
  · rfl
  · rfl

/-! ### `_mdiff`

With `context=None`, `_mdiff(fromlines, tolines)` is `_line_pair_iterator()`
over `_line_iterator()` over the `ndiff` delta.  A from/to slot is
`(num, text)` with `num = 0` standing for Python's falsy `''` of the balancing
blank lines (real line numbers start at 1). -/

/-- One from/to slot of `_mdiff` output. -/
abbrev MSlot := Nat × String

/-- One `_line_iterator` yield. -/
abbrev MTriple := Option MSlot × Option MSlot × Bool

/-- The runs of `+`/`-`/`^` found by `change_re = (\++|\-+|\^+)` in a `'? '`
guide line, with their spans (start, end); structurally recursive scan with a
skip counter for the remainder of an emitted run. -/
def markRunsAux : Nat → List Char → Nat → List (Char × Nat × Nat)
  | _, [], _ => []
  | n + 1, _ :: cs, pos => markRunsAux n cs (pos + 1)
  | 0, c :: rest, pos =>
    if c = '+' ∨ c = '-' ∨ c = '^' then
      (c, pos, pos + 1 + (rest.takeWhile (fun d => d = c)).length) ::
        markRunsAux (rest.takeWhile (fun d => d = c)).length rest (pos + 1)
    else
      markRunsAux 0 rest (pos + 1)

def markRuns (cs : List Char) (pos : Nat) : List (Char × Nat × Nat) :=
  markRunsAux 0 cs pos

/-- The marker-insertion loop of `_make_line` for a `'?'` format key: process
the recorded runs from right to left, wrapping `text[begin:end]` in
`'\0' + key ... '\1'`. -/
def insertMarks (runs : List (Char × Nat × Nat)) (text : List Char) : List Char :=
  runs.foldr
    (fun r t =>
      match r with
      | (key, b, e) =>
        t.take b ++ '\x00' :: key :: ((t.drop b).take (e - b) ++ '\x01' :: t.drop e))
    text

/-- `_make_line` with format key `'?'`: decorate the diff line `line` using
the guide line `markers`, then strip the 2-character prefix. -/
def makeLineGuide (line markers : String) : String :=
  String.mk ((insertMarks (markRuns markers.data 0) line.data).drop 2)

/-- `_make_line` with format key `'-'`/`'+'`: strip the prefix, replace an
empty text by a single space, and wrap the whole line in markers. -/
def makeLineWhole (key : Char) (line : String) : String :=
  let text := line.data.drop 2
  let text := if text = [] then [' '] else text
  String.mk ('\x00' :: key :: (text ++ ['\x01']))

/-- `_make_line` with format key `None`: just strip the prefix. -/
def makeLinePlain (line : String) : String := String.mk (line.data.drop 2)

/-- First character of the k-th lookahead line, `'X'` when the `ndiff`
iterator is exhausted (the padding value used by `_line_iterator`). -/
def winCharD (lines : List String) (k : Nat) : Char :=
  match lines.drop k with
  | [] => 'X'
  | l :: _ => Cdiff.firstCharD l 'X'

/-- The catch-up blank yields for a pending count `p`: to-side blanks for a
negative pending, from-side blanks for a positive one. -/
def blanksFor (p : Int) : List MTriple :=
  if p < 0 then List.replicate (-p).toNat (none, some ((0 : Nat), "\n"), true)
  else List.replicate p.toNat (some ((0 : Nat), "\n"), none, true)

/-- `_line_iterator`, recursing over the remaining `ndiff` lines with the
`num_blanks_pending` counter `p` and the two `num_lines` counters.  The
branches follow the source's `elif` chain on the 4-character lookahead string;
the final fallback (a window shape the `ndiff` grammar never produces, on
which the source would raise `NameError`) returns `[]`. -/
def lineIterator : List String → Int → Nat → Nat → List MTriple
  | [], p, _, _ => blanksFor p
  | l1 :: rest, p, nf, nt =>
    let c1 := Cdiff.firstCharD l1 'X'
    if c1 = 'X' then blanksFor p
    else
      let c2 := winCharD rest 0
      let c3 := winCharD rest 1
      let c4 := winCharD rest 2
      if c1 = '-' ∧ c2 = '?' ∧ c3 = '+' ∧ c4 = '?' then
        match rest with
        | l2 :: l3 :: l4 :: rest' =>
          (some (nf + 1, makeLineGuide l1 l2), some (nt + 1, makeLineGuide l3 l4), true) ::
            lineIterator rest' p (nf + 1) (nt + 1)
        | _ => []
      else if c1 = '-' ∧ c2 = '-' ∧ c3 = '+' ∧ c4 = '+' then
        (some (nf + 1, makeLineWhole '-' l1), none, true) :: lineIterator rest (p - 1) (nf + 1) nt
      else if c1 = '-' ∧ ((c2 = '-' ∧ c3 = '?' ∧ c4 = '+') ∨ (c2 = '-' ∧ c3 = '+') ∨ c2 = ' ') then
        blanksFor (p - 1) ++ [(some (nf + 1, makeLineWhole '-' l1), none, true)] ++
          lineIterator rest 0 (nf + 1) nt
      else if c1 = '-' ∧ c2 = '+' ∧ c3 = '?' then
        match rest with
        | l2 :: l3 :: rest' =>
          (some (nf + 1, makeLinePlain l1), some (nt + 1, makeLineGuide l2 l3), true) ::
            lineIterator rest' p (nf + 1) (nt + 1)
        | _ => []
      else if c1 = '-' ∧ c2 = '?' ∧ c3 = '+' then
        match rest with
        | l2 :: l3 :: rest' =>
          (some (nf + 1, makeLineGuide l1 l2), some (nt + 1, makeLinePlain l3), true) ::
            lineIterator rest' p (nf + 1) (nt + 1)
        | _ => []
      else if c1 = '-' then
        (some (nf + 1, makeLineWhole '-' l1), none, true) :: lineIterator rest (p - 1) (nf + 1) nt
      else if c1 = '+' ∧ c2 = '-' ∧ c3 = '-' then
        (none, some (nt + 1, makeLineWhole '+' l1), true) :: lineIterator rest (p + 1) nf (nt + 1)
      else if c1 = '+' ∧ (c2 = ' ' ∨ c2 = '-') then
        blanksFor (p + 1) ++ [(none, some (nt + 1, makeLineWhole '+' l1), true)] ++
          lineIterator rest 0 nf (nt + 1)
      else if c1 = '+' then
        (none, some (nt + 1, makeLineWhole '+' l1), true) :: lineIterator rest (p + 1) nf (nt + 1)
      else if c1 = ' ' then
        (some (nf + 1, makeLinePlain l1), some (nt + 1, makeLinePlain l1), false) ::
          lineIterator rest p (nf + 1) (nt + 1)
      else []

/-- The pair-popping inner loop of `_line_pair_iterator`: pop matching
from/to pairs while both queues are non-empty, returning the pairs and the
remaining queues (at least one of which is empty). -/
def drainPairs : List (MSlot × Bool) → List (MSlot × Bool) →
    List (MSlot × MSlot × Bool) × List (MSlot × Bool) × List (MSlot × Bool)
  | f :: fq, t :: tq =>
    ((f.1, t.1, f.2 || t.2) :: (drainPairs fq tq).1, (drainPairs fq tq).2)
  | fq, tq => ([], fq, tq)

/-- `_line_pair_iterator`: collect from/to slots, emitting a pair whenever
both sides have one; leftover unpaired slots at exhaustion are dropped.  (The
source pulls a new triple only while one of the queues is empty and pops one
pair at a time; popping all available pairs before each pull is the same
sequence, since `drainPairs` leaves one queue empty.) -/
def pairUp : List MTriple → List (MSlot × Bool) → List (MSlot × Bool) →
    List (MSlot × MSlot × Bool)
  | [], fq, tq => (drainPairs fq tq).1
  | (of, ot, c) :: ts, fq, tq =>
    (drainPairs fq tq).1 ++
    pairUp ts
      ((drainPairs fq tq).2.1 ++ (match of with | some s => [(s, c)] | none => []))
      ((drainPairs fq tq).2.2 ++ (match ot with | some s => [(s, c)] | none => []))

/-- `_mdiff(fromlines, tolines)` with `context=None`. -/
def mdiff (fromlines tolines : List String) : List (MSlot × MSlot × Bool) :=
  pairUp (lineIterator (compare fromlines tolines) 0 0 0) [] []

/-- Evaluation form of `mdiff`: every function on the right-hand side is
structurally recursive, so concrete runs close by `rfl` after rewriting. -/
theorem mdiff_eval (fromlines tolines : List String) :
    mdiff fromlines tolines =
      pairUp (lineIterator (compareF fromlines tolines) 0 0 0) [] [] := by
  rw [mdiff, compare_eq_compareF]

end Difflib

namespace Cdiff

/-! ### Markup rendering (`Diff.markup_traditional`, `Diff.markup_side_by_side`) -/

/-- `Hunk.mdiff()`. -/
def Hunk.mdiff (h : Hunk) : List (Difflib.MSlot × Difflib.MSlot × Bool) :=
  Difflib.mdiff h.get_old_text h.get_new_text

def markup_header (line : String) : String := colorize line "cyan"

def markup_old_path (line : String) : String := colorize line "yellow"

def markup_new_path (line : String) : String := colorize line "yellow"

def markup_hunk_header (line : String) : String := colorize line "lightblue"

def markup_common (line : String) : String := colorize line "reset"

def markup_old (line : String) : String := colorize line "lightred"

def markup_new (line : String) : String := colorize line "lightgreen"

/-- `Diff._markup_mix`: replace the `_mdiff` markers by escape codes, then
colorize with the base color. -/
def markup_mix (line : String) (base_color : String) : String :=
  let del_code := ansi_code "reverse" ++ ansi_code base_color
  let add_code := ansi_code "reverse" ++ ansi_code base_color
  let chg_code := ansi_code "underline" ++ ansi_code base_color
  let rst_code := ansi_code "reset" ++ ansi_code base_color
  let line := pyReplace line "\x00-" del_code
  let line := pyReplace line "\x00+" add_code
  let line := pyReplace line "\x00^" chg_code
  let line := pyReplace line "\x01" rst_code
  colorize line base_color

def markup_old_mix (line : String) : String := markup_mix line "red"

def markup_new_mix (line : String) : String := markup_mix line "green"

/-- The per-pair body of the `markup_traditional` loop (Python truthiness:
`old[0]`/`new[0]` is falsy exactly for the `''` of a balancing blank line,
modelled as line number `0`). -/
def markupTradPair (t : Difflib.MSlot × Difflib.MSlot × Bool) : List String :=
  match t with
  | (old, new, changed) =>
    if changed then
      if old.1 = 0 then
        -- the '+' char after \x00 is kept
        [markup_new (stripMarkerEnds new.2)]
      else if new.1 = 0 then
        -- the '-' char after \x00 is kept
        [markup_old (stripMarkerEnds old.2)]
      else
        [markup_old "-" ++ markup_old_mix old.2,
         markup_new "+" ++ markup_new_mix new.2]
    else
      [markup_common (" " ++ old.2)]

/-- `Diff.markup_traditional` (the generator, materialized as a list). -/
def Diff.markup_traditional (d : Diff) : List String :=
  d.headers.map markup_header ++
  [markup_old_path d.old_path, markup_new_path d.new_path] ++
  d.hunks.bind (fun h =>
    markup_hunk_header h.get_header :: h.mdiff.bind markupTradPair)

/-- `markup_side_by_side._normalize`. -/
def sbsNormalize (line : String) : String :=
  pyReplace (pyReplace line "\t" (spaces 8)) "\n" ""

/-- `markup_side_by_side._fit_width`: escape-aware padding to `width`; content
at least as wide as `width` is passed through unmodified. -/
def fit_width (markup : String) (width : Nat) : String :=
  let line := stripAnsi markup
  if line.length < width then
    markup ++ spaces (width - line.length)
  else
    markup

/-- The row format `'%s |_lightyellow| %s\n'`. -/
def sbsRow (left right : String) : String :=
  left ++ " " ++ colorize "|" "lightyellow" ++ " " ++ right ++ "\n"

/-- The per-pair body of the `markup_side_by_side` loop, at the (reassigned)
width `width`. -/
def markupSbsPair (width : Nat) (t : Difflib.MSlot × Difflib.MSlot × Bool) : List String :=
  match t with
  | (old, new, changed) =>
    let left := sbsNormalize old.2
    let right := sbsNormalize new.2
    if changed then
      if old.1 = 0 then
        let left := spaces width
        let right := String.mk (rstripSet ['\x01'] (lstripSet ['\x00', '+'] right.data))
        let right := fit_width (markup_new right) width
        [sbsRow left right]
      else if new.1 = 0 then
        let left := String.mk (rstripSet ['\x01'] (lstripSet ['\x00', '-'] left.data))
        let left := fit_width (markup_old left) width
        [sbsRow left ""]
      else
        [sbsRow (fit_width (markup_old_mix left) width) (fit_width (markup_new_mix right) width)]
    else
      [sbsRow (fit_width (markup_common left) width) (fit_width (markup_common right) width)]

/-- `Diff.markup_side_by_side(show_number, width)`: "width of 0 means infinite
width, None means auto detect".  The parameters are accepted and then, as in
the source, `width` is unconditionally reassigned to `80` (and `show_number`
is never read). -/
def Diff.markup_side_by_side (d : Diff) (show_number : Bool) (width : Option Int) : List String :=
  let width := 80
  d.headers.map markup_header ++
  [markup_old_path d.old_path, markup_new_path d.new_path] ++
  d.hunks.bind (fun h =>
    markup_hunk_header h.get_header :: h.mdiff.bind (markupSbsPair width))

/-- `DiffMarkup.markup` over an already-parsed stream. -/
def markupDiffs (diffs : List Diff) (side_by_side show_number : Bool)
    (width : Option Int) : List String :=
  if side_by_side then
    diffs.bind (fun d => d.markup_side_by_side show_number width)
  else
    diffs.bind Diff.markup_traditional

/-- `DiffMarkup(stream).markup(...)`: parse, then render. -/
def diffMarkup (stream : List String) (side_by_side show_number : Bool)
    (width : Option Int) : Except ParseError (List String) :=
  (parse stream).map (fun diffs => markupDiffs diffs side_by_side show_number width)

/-! ### Change-span extraction

To state intraline-marking claims we extract, from a line carrying `_mdiff`
markers, the substrings enclosed between a span-start marker (`\x00` followed
by `-`, `+` or `^`) and the span-end marker `\x01`. -/

def spanGo : Option (List Char) → List Char → List (List Char)
  | _, [] => []
  | some acc, '\x01' :: rest => acc :: spanGo none rest
  | some acc, c :: rest => spanGo (some (acc ++ [c])) rest
  | none, '\x00' :: '-' :: rest => spanGo (some []) rest
  | none, '\x00' :: '+' :: rest => spanGo (some []) rest
  | none, '\x00' :: '^' :: rest => spanGo (some []) rest
  | none, _ :: rest => spanGo none rest

/-- The texts enclosed in `\x00±`/`\x00^` … `\x01` change-span markers. -/
def enclosedSpans (s : String) : List String :=
  (spanGo none s.data).map String.mk

end Cdiff

/-! ## The claims -/

namespace Cdiff

/-- C9: the input `--- a\n+++ b\n@@ -1 +1 @@\n-x\n+y\n` parses to exactly one
`Diff` with one `Hunk` whose line list is `[('-', "x\n"), ('+', "y\n")]`; its
`mdiff` is a single replacement pair in which both `"x\n"` and `"y\n"` are
fully enclosed in change-span markers; and `markup_traditional` renders the
hunk as a `-`-prefixed old line and a `+`-prefixed new line, both wholly
inverse-video marked. -/
theorem c9_example :
    parse ["--- a\n", "+++ b\n", "@@ -1 +1 @@\n", "-x\n", "+y\n"] =
      .ok [⟨[], "--- a\n", "+++ b\n", [⟨"@@ -1 +1 @@\n", [('-', "x\n"), ('+', "y\n")]⟩]⟩] ∧
    (Hunk.mk "@@ -1 +1 @@\n" [('-', "x\n"), ('+', "y\n")]).mdiff =
      [((1, "\x00-x\n\x01"), (1, "\x00+y\n\x01"), true)] ∧
    enclosedSpans "\x00-x\n\x01" = ["x\n"] ∧
    enclosedSpans "\x00+y\n\x01" = ["y\n"] ∧
    (Diff.mk [] "--- a\n" "+++ b\n"
        [⟨"@@ -1 +1 @@\n", [('-', "x\n"), ('+', "y\n")]⟩]).markup_traditional =
      ["\x1b[33m--- a\n\x1b[0m",
       "\x1b[33m+++ b\n\x1b[0m",
       "\x1b[1;34m@@ -1 +1 @@\n\x1b[0m",
       "\x1b[1;31m-\x1b[0m\x1b[31m\x1b[7m\x1b[31mx\n\x1b[0m\x1b[31m\x1b[0m",
       "\x1b[1;32m+\x1b[0m\x1b[32m\x1b[7m\x1b[32my\n\x1b[0m\x1b[32m\x1b[0m"] := by
  refine ⟨?_, ?_, rfl, rfl, ?_⟩
  · rw [parse_eval]; rfl
  · simp only [Hunk.mdiff, Difflib.mdiff_eval]; rfl
  · simp only [Diff.markup_traditional, Hunk.mdiff, Difflib.mdiff_eval]; rfl

/-- C10: the `width` argument of `markup_side_by_side` (as well as
`show_number`) has no effect on the output, because the function reassigns
`width = 80` before rendering. -/
theorem c10_width_ignored (d : Diff) (sn1 sn2 : Bool) (w1 w2 : Option Int) :
    d.markup_side_by_side sn1 w1 = d.markup_side_by_side sn2 w2 := rfl

/-- C3 (counterexample): for the one-line-changed hunk `-foo\n+foobar\n` the
similarity ratio `2*4/11` falls below the `0.75` cutoff of `_fancy_replace`,
so `mdiff` emits whole-line change markers: the span enclosed on the new side
is the entire line `"foobar\n"`, not the appended substring `"bar"`, and
`markup_traditional` renders both whole lines inverse-video marked. -/
theorem c3_counterexample :
    parse ["--- a\n", "+++ b\n", "@@ -1 +1 @@\n", "-foo\n", "+foobar\n"] =
      .ok [⟨[], "--- a\n", "+++ b\n",
        [⟨"@@ -1 +1 @@\n", [('-', "foo\n"), ('+', "foobar\n")]⟩]⟩] ∧
    (Hunk.mk "@@ -1 +1 @@\n" [('-', "foo\n"), ('+', "foobar\n")]).mdiff =
      [((1, "\x00-foo\n\x01"), (1, "\x00+foobar\n\x01"), true)] ∧
    enclosedSpans "\x00+foobar\n\x01" = ["foobar\n"] ∧
    enclosedSpans "\x00+foobar\n\x01" ≠ ["bar"] ∧
    (Diff.mk [] "--- a\n" "+++ b\n"
        [⟨"@@ -1 +1 @@\n", [('-', "foo\n"), ('+', "foobar\n")]⟩]).markup_traditional =
      ["\x1b[33m--- a\n\x1b[0m",
       "\x1b[33m+++ b\n\x1b[0m",
       "\x1b[1;34m@@ -1 +1 @@\n\x1b[0m",
       "\x1b[1;31m-\x1b[0m\x1b[31m\x1b[7m\x1b[31mfoo\n\x1b[0m\x1b[31m\x1b[0m",
       "\x1b[1;32m+\x1b[0m\x1b[32m\x1b[7m\x1b[32mfoobar\n\x1b[0m\x1b[32m\x1b[0m"] := by
  refine ⟨?_, ?_, rfl, by decide, ?_⟩
  · rw [parse_eval]; rfl
  · simp only [Hunk.mdiff, Difflib.mdiff_eval]; rfl
  · simp only [Diff.markup_traditional, Hunk.mdiff, Difflib.mdiff_eval]; rfl

/-- C3 (amended): intraline marking does happen when the line pair is similar
enough: for the hunk `-fooba\n+foobar\n` (ratio `2*6/13 ≥ 0.75`) the only
change span is the appended `"r"` — the old line carries no markers at all and
the rendered replacement highlights just that character. -/
theorem c3_intraline :
    parse ["--- a\n", "+++ b\n", "@@ -1 +1 @@\n", "-fooba\n", "+foobar\n"] =
      .ok [⟨[], "--- a\n", "+++ b\n",
        [⟨"@@ -1 +1 @@\n", [('-', "fooba\n"), ('+', "foobar\n")]⟩]⟩] ∧
    (Hunk.mk "@@ -1 +1 @@\n" [('-', "fooba\n"), ('+', "foobar\n")]).mdiff =
      [((1, "fooba\n"), (1, "fooba\x00+r\x01\n"), true)] ∧
    enclosedSpans "fooba\x00+r\x01\n" = ["r"] ∧
    enclosedSpans "fooba\n" = [] ∧
    (Diff.mk [] "--- a\n" "+++ b\n"
        [⟨"@@ -1 +1 @@\n", [('-', "fooba\n"), ('+', "foobar\n")]⟩]).markup_traditional =
      ["\x1b[33m--- a\n\x1b[0m",
       "\x1b[33m+++ b\n\x1b[0m",
       "\x1b[1;34m@@ -1 +1 @@\n\x1b[0m",
       "\x1b[1;31m-\x1b[0m\x1b[31mfooba\n\x1b[0m",
       "\x1b[1;32m+\x1b[0m\x1b[32mfooba\x1b[7m\x1b[32mr\x1b[0m\x1b[32m\n\x1b[0m"] := by
  refine ⟨?_, ?_, rfl, rfl, ?_⟩
  · rw [parse_eval]; rfl
  · simp only [Hunk.mdiff, Difflib.mdiff_eval]; rfl
  · simp only [Diff.markup_traditional, Hunk.mdiff, Difflib.mdiff_eval]; rfl

/-! ### Line-classification shape facts

The parser dispatches on the classification predicates in a fixed order; the
step theorems below need that a line matching a later predicate falsifies the
earlier ones, which follows from its first character. -/

theorem strStarts_head (pre : String) {line : String} {c : Char} {cs : List Char}
    (hp : pre.data = c :: cs) (h : strStarts line pre = true) :
    ∃ t, line.data = c :: t := by
  have hpre := List.isPrefixOf_iff_prefix.mp h
  rw [hp] at hpre
  obtain ⟨t, ht⟩ := hpre
  exact ⟨cs ++ t, by rw [← ht, List.cons_append]⟩

theorem is_header_false_of_head {line : String} {c : Char} {t : List Char}
    (hd : line.data = c :: t)
    (hc : c = '+' ∨ c = '@' ∨ c = '\\' ∨ c = ' ' ∨ c = '-') :
    Udiff.is_header line = false := by
  simp only [Udiff.is_header, hd]
  rcases hc with rfl | rfl | rfl | rfl | rfl <;> rfl

theorem strStarts_false_of_head (pre : String) {line : String} {c d : Char} {t cs : List Char}
    (hd : line.data = c :: t) (hp : pre.data = d :: cs) (hne : c ≠ d) :
    strStarts line pre = false := by
  simp only [strStarts, hp, hd, List.isPrefixOf]
  simp [Ne.symm hne]

/-- C5: a new-path line (`+++ `) is accepted only when an old path is held
and no new path has been set yet: in that state it is recorded (whatever the
rest of the state is); in every other state the parse fails with
`malformedPatch`, and in particular the input `+++ b\n@@ -1 +1 @@\n` (which
passes the sniff) fails with `malformedPatch` and yields no `Diff`. -/
theorem c5_new_path_state :
    (∀ (line : String) (rest : List String) (st : PState),
      Udiff.is_new_path line = true →
      ¬ (st.old_path.isSome = true ∧ st.new_path = none) →
      parse_udiff (line :: rest) st = .error .malformedPatch) ∧
    (∀ (line : String) (rest : List String) (hds : List String) (op : String)
        (hks : List Hunk) (hkv : Option Hunk),
      Udiff.is_new_path line = true →
      parse_udiff (line :: rest) ⟨hds, some op, none, hks, hkv⟩ =
        parse_udiff rest ⟨hds, some op, some line, hks, hkv⟩) ∧
    parse ["+++ b\n", "@@ -1 +1 @@\n"] = .error .malformedPatch := by
  have shape : ∀ line : String, Udiff.is_new_path line = true →
      Udiff.is_header line = false ∧ Udiff.is_old_path line = false := by
    intro line h
    obtain ⟨t, hd⟩ := strStarts_head "+++ " rfl h
    exact ⟨is_header_false_of_head hd (Or.inl rfl),
      strStarts_false_of_head "--- " hd rfl (by decide)⟩
  refine ⟨?_, ?_, by rw [parse_eval]; rfl⟩
  · intro line rest st h hbad
    obtain ⟨h1, h2⟩ := shape line h
    rw [parse_udiff]
    simp only [h1, h2, h, Bool.false_eq_true, if_false, if_true]
    rw [if_neg hbad]
  · intro line rest hds op hks hkv h
    obtain ⟨h1, h2⟩ := shape line h
    rw [parse_udiff]
    simp only [h1, h2, h, Bool.false_eq_true, if_false, if_true]
    rw [if_pos ⟨rfl, trivial⟩]

theorem c5_witness :
    parse_udiff ["+++ b\n"] emptyPState = .error .malformedPatch ∧
    parse_udiff ["+++ b\n"] ⟨[], some "--- a\n", none, [], none⟩ =
      parse_udiff [] ⟨[], some "--- a\n", some "+++ b\n", [], none⟩ :=
  ⟨c5_new_path_state.1 "+++ b\n" [] emptyPState (by decide) (by decide),
   c5_new_path_state.2.1 "+++ b\n" [] [] "--- a\n" [] none (by decide)⟩

/-- C7 (counterexample): the header line `H\n`, encountered while a complete
old-path (and new-path, and an open hunk) is held but with no headers
collected, does NOT emit the in-progress `Diff`: it is appended to the
current header collection, so it ends up attached to the first emitted
`Diff` (whose headers become `["H\n"]`) instead of starting the second one
(whose headers stay `[]`). -/
theorem c7_counterexample :
    parse ["--- a\n", "+++ b\n", "@@ -1 +1 @@\n", "-x\n", "H\n",
           "--- c\n", "+++ d\n", "@@ -1 +1 @@\n", "+y\n"] =
      .ok [⟨["H\n"], "--- a\n", "+++ b\n", [⟨"@@ -1 +1 @@\n", [('-', "x\n")]⟩]⟩,
           ⟨[], "--- c\n", "+++ d\n", [⟨"@@ -1 +1 @@\n", [('+', "y\n")]⟩]⟩] := by
  rw [parse_eval]; rfl

/-- C7 (amended): the transition rules as implemented: a header line emits
the in-progress `Diff` (with its finalized hunk list) and resets the state
only when the parser holds both a complete old-path AND at least one
previously collected header; with no collected headers the header line joins
the in-progress `Diff`'s header collection.  An old-path line encountered
while an old-path is already held does emit and reset unconditionally (given
the complete state the source asserts). -/
theorem c7_transitions :
    (∀ (line : String) (rest : List String) (st : PState) (op np : String) (hk : Hunk),
      Udiff.is_header line = true → st.headers ≠ [] →
      st.old_path = some op → st.new_path = some np → st.hunk = some hk →
      parse_udiff (line :: rest) st =
        (parse_udiff (line :: rest) emptyPState).map
          (⟨st.headers, op, np, st.hunks ++ [hk]⟩ :: ·)) ∧
    (∀ (line : String) (rest : List String) (st : PState),
      Udiff.is_header line = true → (st.headers = [] ∨ st.old_path = none) →
      parse_udiff (line :: rest) st =
        parse_udiff rest { st with headers := st.headers ++ [line] }) ∧
    (∀ (line : String) (rest : List String) (st : PState) (op np : String) (hk : Hunk),
      Udiff.is_old_path line = true →
      st.old_path = some op → st.new_path = some np → st.hunk = some hk →
      parse_udiff (line :: rest) st =
        (parse_udiff (line :: rest) emptyPState).map
          (⟨st.headers, op, np, st.hunks ++ [hk]⟩ :: ·)) ∧
    (∀ (line : String) (rest : List String) (st : PState),
      Udiff.is_old_path line = true → st.old_path = none →
      parse_udiff (line :: rest) st =
        parse_udiff rest { st with old_path := some line }) := by
  refine ⟨?_, ?_, ?_, ?_⟩
  · intro line rest st op np hk h hhd hop hnp hhk
    obtain ⟨hds, opv, npv, hks, hkv⟩ := st
    simp only at hop hnp hhk ⊢
    subst hop hnp hhk
    rw [parse_udiff]
    simp only [h, if_true, Option.isSome_some, and_true]
    rw [if_pos (by simpa using hhd)]
  · intro line rest st h hor
    obtain ⟨hds, opv, npv, hks, hkv⟩ := st
    rw [parse_udiff]
    simp only [h, if_true]
    rw [if_neg]
    simp only at hor
    rcases hor with rfl | rfl
    · simp
    · simp
  · intro line rest st op np hk h hop hnp hhk
    obtain ⟨hds, opv, npv, hks, hkv⟩ := st
    simp only at hop hnp hhk ⊢
    subst hop hnp hhk
    have h1 : Udiff.is_header line = false := by
      obtain ⟨t, hd⟩ := strStarts_head "--- " rfl h
      exact is_header_false_of_head hd (by simp)
    rw [parse_udiff]
    simp only [h1, h, Bool.false_eq_true, if_false, if_true]
  · intro line rest st h hop
    obtain ⟨hds, opv, npv, hks, hkv⟩ := st
    simp only at hop ⊢
    subst hop
    have h1 : Udiff.is_header line = false := by
      obtain ⟨t, hd⟩ := strStarts_head "--- " rfl h
      exact is_header_false_of_head hd (by simp)
    rw [parse_udiff]
    simp only [h1, h, Bool.false_eq_true, if_false, if_true]

theorem c7_witness :
    parse_udiff ["H2\n"] ⟨["H\n"], some "--- a\n", some "+++ b\n", [], some ⟨"@@ -1 +1 @@\n", []⟩⟩ =
      (parse_udiff ["H2\n"] emptyPState).map
        (⟨["H\n"], "--- a\n", "+++ b\n", [⟨"@@ -1 +1 @@\n", []⟩]⟩ :: ·) ∧
    parse_udiff ["H\n"] emptyPState = parse_udiff [] ⟨["H\n"], none, none, [], none⟩ ∧
    parse_udiff ["--- c\n"] ⟨[], some "--- a\n", some "+++ b\n", [], some ⟨"@@ -1 +1 @@\n", []⟩⟩ =
      (parse_udiff ["--- c\n"] emptyPState).map
        (⟨[], "--- a\n", "+++ b\n", [⟨"@@ -1 +1 @@\n", []⟩]⟩ :: ·) ∧
    parse_udiff ["--- a\n"] emptyPState = parse_udiff [] ⟨[], some "--- a\n", none, [], none⟩ :=
  ⟨c7_transitions.1 "H2\n" [] ⟨["H\n"], some "--- a\n", some "+++ b\n", [], some ⟨"@@ -1 +1 @@\n", []⟩⟩
      "--- a\n" "+++ b\n" ⟨"@@ -1 +1 @@\n", []⟩ (by decide) (by decide) rfl rfl rfl,
   c7_transitions.2.1 "H\n" [] emptyPState (by decide) (Or.inl rfl),
   c7_transitions.2.2.1 "--- c\n" [] ⟨[], some "--- a\n", some "+++ b\n", [], some ⟨"@@ -1 +1 @@\n", []⟩⟩
      "--- a\n" "+++ b\n" ⟨"@@ -1 +1 @@\n", []⟩ (by decide) rfl rfl rfl,
   c7_transitions.2.2.2 "--- a\n" [] emptyPState (by decide) rfl⟩

set_option maxHeartbeats 3000000 in
/-- The state-machine loop itself never produces the format-sniff failure:
every error it raises is `malformedPatch`. -/
theorem parseUdiffFuel_no_unsupported :
    ∀ (fuel : Nat) (stream : List String) (st : PState),
      parseUdiffFuel fuel stream st ≠ .error .unsupportedFormat := by
  intro fuel
  induction fuel with
  | zero => intro stream st; simp [parseUdiffFuel]
  | succ fuel ih =>
    intro stream st
    match stream with
    | [] =>
      obtain ⟨hds, opv, npv, hks, hkv⟩ := st
      simp only [parseUdiffFuel]
      rcases opv with _ | op <;> rcases npv with _ | np <;> rcases hkv with _ | hk <;>
        dsimp only <;>
        first
          | (split_ifs <;> intro hc <;> exact absurd hc (by simp))
          | (intro hc; exact absurd hc (by simp))
    | line :: rest =>
      obtain ⟨hds, opv, npv, hks, hkv⟩ := st
      simp only [parseUdiffFuel]
      rcases opv with _ | op <;> rcases npv with _ | np <;> rcases hkv with _ | hk <;>
        dsimp only <;>
        split_ifs <;>
        first
          | exact ih _ _
          | (have hih := ih (line :: rest) emptyPState
             cases hX : parseUdiffFuel fuel (line :: rest) emptyPState with
             | ok a =>
               intro hc
               simp only [Except.map] at hc
               exact absurd hc (by simp)
             | error e =>
               intro hc
               simp only [Except.map] at hc
               injection hc with hc2
               exact hih (hX.trans (by rw [hc2])))
          | (intro hc; exact absurd hc (by simp))

/-- C4: the parse fails with `unsupportedFormat` if and only if none of the
first 10 input lines begins with the new-path prefix `+++ ` (and then no
`Diff` is produced); once the sniff passes, the only possible failure is
`malformedPatch`, since the state-machine loop never raises the sniff
error. -/
theorem c4_unsupported_iff (stream : List String) :
    parse stream = .error .unsupportedFormat ↔
      (stream.take 10).any (fun l => strStarts l "+++ ") = false := by
  rw [parse_eval]
  by_cases hs : (stream.take 10).any (fun l => strStarts l "+++ ") = true
  · rw [if_pos hs]
    constructor
    · intro hcontra
      exact absurd hcontra (parseUdiffFuel_no_unsupported _ _ _)
    · intro hfalse
      rw [hs] at hfalse
      cases hfalse
  · rw [if_neg hs]
    simp only [Bool.not_eq_true] at hs
    exact ⟨fun _ => hs, fun _ => rfl⟩

/-- C6 (counterexample): the input `--- a\n+++ b\n` (both paths, then end of
input) parses successfully to one finalized `Diff` whose hunk list is empty,
refuting "a Diff always has at least one hunk once finalized". -/
theorem c6_counterexample :
    parse ["--- a\n", "+++ b\n"] = .ok [⟨[], "--- a\n", "+++ b\n", []⟩] ∧
    (Diff.mk [] "--- a\n" "+++ b\n" []).hunks = [] :=
  ⟨by rw [parse_eval]; rfl, rfl⟩

set_option maxHeartbeats 3000000 in
/-- Every `Diff` emitted before the end of input carries a freshly closed
hunk, so its hunk list is non-empty (fuel-indexed form). -/
theorem parseUdiffFuel_dropLast_hunks :
    ∀ (fuel : Nat) (stream : List String) (st : PState) (ds : List Diff),
      parseUdiffFuel fuel stream st = .ok ds →
      ∀ d ∈ ds.dropLast, d.hunks ≠ [] := by
  intro fuel
  induction fuel with
  | zero => intro stream st ds h; simp [parseUdiffFuel] at h
  | succ fuel ih =>
    intro stream st ds h
    match stream with
    | [] =>
      obtain ⟨hds, opv, npv, hks, hkv⟩ := st
      simp only [parseUdiffFuel] at h
      have hdl : ds.dropLast = [] := by
        rcases opv with _ | op <;> rcases npv with _ | np <;> rcases hkv with _ | hk <;>
          dsimp only at h <;>
          first
            | (split_ifs at h <;>
               first
                 | (injection h with h'; rw [← h']; try rfl)
                 | exact absurd h (by simp))
            | (injection h with h'; rw [← h']; try rfl)
            | exact absurd h (by simp)
      rw [hdl]
      intro d hd
      simp at hd
    | line :: rest =>
      obtain ⟨hds, opv, npv, hks, hkv⟩ := st
      simp only [parseUdiffFuel] at h
      rcases opv with _ | op <;> rcases npv with _ | np <;> rcases hkv with _ | hk <;>
        dsimp only at h <;>
        split_ifs at h <;>
        first
          | exact absurd h (by simp)
          | exact ih _ _ _ h
          | (revert h
             cases hX : parseUdiffFuel fuel (line :: rest) emptyPState with
             | error e =>
               intro h
               simp only [Except.map] at h
               exact absurd h (by simp)
             | ok tail =>
               simp only [Except.map]
               intro h
               injection h with h'
               subst h'
               intro d hd
               match tail with
               | [] => simp at hd
               | t :: ts =>
                 rw [List.dropLast_cons₂] at hd
                 rcases List.mem_cons.mp hd with rfl | hmem
                 · simp
                 · exact ih _ _ _ hX d hmem)

/-- The first-character facts needed to reach the content-line branch of the
parser. -/
theorem content_shape (line : String)
    (h : (Udiff.is_old line || Udiff.is_new line || Udiff.is_common line) = true) :
    Udiff.is_header line = false ∧ Udiff.is_old_path line = false ∧
    Udiff.is_new_path line = false ∧ Udiff.is_hunk_header line = false := by
  rcases Bool.or_eq_true_iff.mp h with hh | hc
  · rcases Bool.or_eq_true_iff.mp hh with ho | hn
    · obtain ⟨hs, hno⟩ := Bool.and_eq_true_iff.mp ho
      obtain ⟨t, hd⟩ := strStarts_head "-" rfl hs
      refine ⟨is_header_false_of_head hd (by simp), by simpa using hno,
        strStarts_false_of_head "+++ " hd rfl (by decide),
        strStarts_false_of_head "@@ -" hd rfl (by decide)⟩
    · obtain ⟨hs, hnn⟩ := Bool.and_eq_true_iff.mp hn
      obtain ⟨t, hd⟩ := strStarts_head "+" rfl hs
      refine ⟨is_header_false_of_head hd (by simp),
        strStarts_false_of_head "--- " hd rfl (by decide),
        by simpa using hnn,
        strStarts_false_of_head "@@ -" hd rfl (by decide)⟩
  · obtain ⟨t, hd⟩ := strStarts_head " " rfl hc
    refine ⟨is_header_false_of_head hd (by simp),
      strStarts_false_of_head "--- " hd rfl (by decide),
      strStarts_false_of_head "+++ " hd rfl (by decide),
      strStarts_false_of_head "@@ -" hd rfl (by decide)⟩

/-- C6 (amended): `old_path` is set before `new_path` and both before any
hunk is attached (a hunk header or content line in any state without both
paths — or a content line without an open hunk — aborts with
`malformedPatch`), and every `Diff` except possibly the last one of a
successful parse has at least one hunk; a `Diff` finalized at end of input
may have an empty hunk list. -/
theorem c6_invariants :
    (∀ (stream : List String) (ds : List Diff),
      parse stream = .ok ds → ∀ d ∈ ds.dropLast, d.hunks ≠ []) ∧
    (∀ (line : String) (rest : List String) (st : PState),
      Udiff.is_hunk_header line = true →
      ¬ (st.old_path.isSome = true ∧ st.new_path.isSome = true) →
      parse_udiff (line :: rest) st = .error .malformedPatch) ∧
    (∀ (line : String) (rest : List String) (st : PState),
      (Udiff.is_old line || Udiff.is_new line || Udiff.is_common line) = true →
      ¬ (st.old_path.isSome = true ∧ st.new_path.isSome = true ∧ st.hunk.isSome = true) →
      parse_udiff (line :: rest) st = .error .malformedPatch) := by
  refine ⟨?_, ?_, ?_⟩
  · intro stream ds h
    rw [parse_eval] at h
    split at h
    · exact parseUdiffFuel_dropLast_hunks _ _ _ _ h
    · cases h
  · intro line rest st h hbad
    have hh : Udiff.is_header line = false ∧ Udiff.is_old_path line = false ∧
        Udiff.is_new_path line = false := by
      obtain ⟨t, hd⟩ := strStarts_head "@@ -" rfl h
      exact ⟨is_header_false_of_head hd (by simp),
        strStarts_false_of_head "--- " hd rfl (by decide),
        strStarts_false_of_head "+++ " hd rfl (by decide)⟩
    obtain ⟨h1, h2, h3⟩ := hh
    rw [parse_udiff]
    simp only [h1, h2, h3, h, Bool.false_eq_true, if_false, if_true]
    rw [if_neg hbad]
  · intro line rest st h hbad
    obtain ⟨h1, h2, h3, h4⟩ := content_shape line h
    obtain ⟨hds, opv, npv, hks, hkv⟩ := st
    rw [parse_udiff]
    simp only [h1, h2, h3, h4, h, Bool.false_eq_true, if_false, if_true]
    simp only at hbad
    by_cases hp : (opv.isSome = true ∧ npv.isSome = true)
    · rw [if_pos hp]
      rcases hkv with _ | hk
      · rfl
      · exact absurd ⟨hp.1, hp.2, rfl⟩ hbad
    · rw [if_neg hp]

/-! ### Escape-stripping is unaffected by appended spaces

None of the characters an escape sequence `\x1b\[(1;)?\d{1,2}m` consumes can
be a space, so a match never extends into padding appended after the
measured text; the padding therefore survives a re-measurement intact. -/

theorem ansiDigitsThenM_append_spaces (cs : List Char) (k : Nat) :
    ansiDigitsThenM (cs ++ List.replicate k ' ') = ansiDigitsThenM cs := by
  match cs, k with
  | [], 0 => rfl
  | [], 1 => rfl
  | [], k + 2 =>
    show ansiDigitsThenM (' ' :: ' ' :: List.replicate k ' ') = none
    rw [ansiDigitsThenM]
    rw [if_neg (by decide), if_neg (by simp)]
  | [c1], 0 => rfl
  | [c1], k + 1 =>
    show ansiDigitsThenM (c1 :: ' ' :: List.replicate k ' ') = none
    rw [ansiDigitsThenM]
    rw [if_neg (by simp), if_neg (by simp)]
  | c1 :: c2 :: cs2, k =>
    show ansiDigitsThenM (c1 :: c2 :: (cs2 ++ List.replicate k ' ')) = _
    rw [ansiDigitsThenM, ansiDigitsThenM]
    match cs2, k with
    | [], 0 => rfl
    | [], k + 1 =>
      show (if _ then _ else if c1.isDigit && c2.isDigit &&
        decide ((' ' :: List.replicate k ' ').head? = some 'm') then _ else _) = _
      simp
    | c3 :: cs3, k => rfl

theorem ansiDigitsThenM_le (cs : List Char) (n : Nat)
    (h : ansiDigitsThenM cs = some n) : n ≤ cs.length := by
  match cs with
  | [] => cases h
  | [c1] => cases h
  | c1 :: c2 :: cs2 =>
    rw [ansiDigitsThenM] at h
    split_ifs at h with h1 h2
    · injection h with h'
      simp
      omega
    · injection h with h'
      have h3 : cs2.head? = some 'm' := of_decide_eq_true (by
        have h4 := h2
        simp only [Bool.and_eq_true] at h4
        exact h4.2)
      match cs2, h3 with
      | c3 :: cs3, _ =>
        simp
        omega

theorem ansiAfterBracket_append_spaces (cs : List Char) (k : Nat) :
    ansiAfterBracket (cs ++ List.replicate k ' ') = ansiAfterBracket cs := by
  match cs with
  | c1 :: c2 :: cs2 =>
    have ht : (c1 :: c2 :: (cs2 ++ List.replicate k ' ')).take 2 =
        (c1 :: c2 :: cs2).take 2 := rfl
    show ansiAfterBracket (c1 :: c2 :: (cs2 ++ List.replicate k ' ')) = _
    rw [ansiAfterBracket, ansiAfterBracket, ht]
    by_cases h12 : (c1 :: c2 :: cs2).take 2 = ['1', ';']
    · rw [if_pos h12, if_pos h12]
      show (match ansiDigitsThenM (cs2 ++ List.replicate k ' ') with
        | some n => some (2 + n)
        | none => ansiDigitsThenM (c1 :: c2 :: (cs2 ++ List.replicate k ' '))) = _
      rw [ansiDigitsThenM_append_spaces cs2 k,
        show c1 :: c2 :: (cs2 ++ List.replicate k ' ') =
          (c1 :: c2 :: cs2) ++ List.replicate k ' ' from rfl,
        ansiDigitsThenM_append_spaces (c1 :: c2 :: cs2) k,
        show List.drop 2 (c1 :: c2 :: cs2) = cs2 from rfl]
    · rw [if_neg h12, if_neg h12,
        show c1 :: c2 :: (cs2 ++ List.replicate k ' ') =
          (c1 :: c2 :: cs2) ++ List.replicate k ' ' from rfl,
        ansiDigitsThenM_append_spaces (c1 :: c2 :: cs2) k]
  | [] =>
    match k with
    | 0 => rfl
    | 1 => rfl
    | k + 2 =>
      show ansiAfterBracket (' ' :: ' ' :: List.replicate k ' ') = _
      rw [ansiAfterBracket, ansiAfterBracket]
      rw [if_neg (by simp), if_neg (by simp)]
      exact ansiDigitsThenM_append_spaces [] (k + 2)
  | [c1] =>
    match k with
    | 0 => rfl
    | k + 1 =>
      show ansiAfterBracket (c1 :: ' ' :: List.replicate k ' ') = _
      rw [ansiAfterBracket, ansiAfterBracket]
      rw [if_neg (by simp), if_neg (by simp)]
      exact ansiDigitsThenM_append_spaces [c1] (k + 1)

theorem ansiAfterBracket_le (cs : List Char) (n : Nat)
    (h : ansiAfterBracket cs = some n) : n ≤ cs.length := by
  rw [ansiAfterBracket] at h
  split_ifs at h with ht
  · revert h
    cases hd : ansiDigitsThenM (cs.drop 2) with
    | some m =>
      intro h
      injection h with h'
      have h1 := ansiDigitsThenM_le _ _ hd
      have h2 : (List.drop 2 cs).length = cs.length - 2 := List.length_drop 2 cs
      have h4 := congrArg List.length ht
      simp only [List.length_take, List.length_cons, List.length_nil] at h4
      omega
    | none =>
      intro h
      exact ansiDigitsThenM_le _ _ h
  · exact ansiDigitsThenM_le _ _ h

theorem ansiEscLen_append_spaces (cs : List Char) (k : Nat) :
    ansiEscLen (cs ++ List.replicate k ' ') = ansiEscLen cs := by
  match cs with
  | c1 :: cs2 =>
    have hh : (c1 :: (cs2 ++ List.replicate k ' ')).head? = (c1 :: cs2).head? := rfl
    show ansiEscLen (c1 :: (cs2 ++ List.replicate k ' ')) = _
    rw [ansiEscLen, ansiEscLen, hh]
    by_cases hc : (c1 :: cs2).head? = some '['
    · rw [if_pos hc, if_pos hc]
      show (ansiAfterBracket (cs2 ++ List.replicate k ' ')).map _ = _
      rw [ansiAfterBracket_append_spaces cs2 k, List.tail_cons]
    · rw [if_neg hc, if_neg hc]
  | [] =>
    match k with
    | 0 => rfl
    | k + 1 =>
      show ansiEscLen (' ' :: List.replicate k ' ') = _
      rw [ansiEscLen, ansiEscLen]
      rw [if_neg (by simp), if_neg (by simp)]

theorem ansiEscLen_le (cs : List Char) (n : Nat)
    (h : ansiEscLen cs = some n) : n ≤ cs.length := by
  rw [ansiEscLen] at h
  split_ifs at h with hc
  match cs, hc with
  | c1 :: cs2, hc =>
      revert h
      cases hb : ansiAfterBracket (c1 :: cs2).tail with
      | some m =>
        intro h
        injection h with h'
        have h2 : m + 1 = n := h'
        have hle := ansiAfterBracket_le _ _ hb
        simp only [List.tail_cons] at hle
        simp only [List.length_cons]
        omega
      | none =>
        intro h
        exact absurd h (by simp)

theorem stripAnsiAux_spaces (k : Nat) :
    stripAnsiAux 0 (List.replicate k ' ') = List.replicate k ' ' := by
  induction k with
  | zero => rfl
  | succ k ih =>
    rw [List.replicate_succ, stripAnsiAux]
    rw [if_neg (by decide)]
    rw [ih]

theorem stripAnsiAux_append_spaces :
    ∀ (xs : List Char) (n k : Nat), n ≤ xs.length →
      stripAnsiAux n (xs ++ List.replicate k ' ') =
        stripAnsiAux n xs ++ List.replicate k ' ' := by
  intro xs
  induction xs with
  | nil =>
    intro n k hn
    have hn0 : n = 0 := by simpa using hn
    subst hn0
    simp only [List.nil_append]
    rw [stripAnsiAux_spaces]
    rfl
  | cons c cs ih =>
    intro n k hn
    match n with
    | m + 1 =>
      show stripAnsiAux (m + 1) (c :: (cs ++ List.replicate k ' ')) = _
      rw [stripAnsiAux, stripAnsiAux]
      exact ih m k (by simpa using hn)
    | 0 =>
      show stripAnsiAux 0 (c :: (cs ++ List.replicate k ' ')) = _
      rw [stripAnsiAux, stripAnsiAux]
      by_cases hc : c = '\x1b'
      · rw [if_pos hc, if_pos hc, ansiEscLen_append_spaces]
        cases he : ansiEscLen cs with
        | some n' => exact ih n' k (ansiEscLen_le cs n' he)
        | none => rw [List.cons_append, ← ih 0 k (by omega)]
      · rw [if_neg hc, if_neg hc, List.cons_append, ← ih 0 k (by omega)]

theorem stripAnsi_append_spaces (s : String) (k : Nat) :
    stripAnsi (s ++ spaces k) = stripAnsi s ++ spaces k := by
  show String.mk (stripAnsiL (s ++ spaces k).data) = _
  have hd : (s ++ spaces k).data = s.data ++ List.replicate k ' ' := by
    simp [spaces]
  rw [hd, stripAnsiL, stripAnsiAux_append_spaces s.data 0 k (by omega)]
  rfl

/-- C8 (counterexample): the deletion-only hunk `-x\n` produces a
side-by-side row whose right column is the empty string: visible width 0,
not 80 — the claim's "every column narrower than 80 is right-padded to
exactly 80" fails on it, since this column is never routed through
`_fit_width` (which would have turned it into 80 spaces). -/
theorem c8_counterexample :
    parse ["--- a\n", "+++ b\n", "@@ -1 +1 @@\n", "-x\n"] =
      .ok [⟨[], "--- a\n", "+++ b\n", [⟨"@@ -1 +1 @@\n", [('-', "x\n")]⟩]⟩] ∧
    (Hunk.mk "@@ -1 +1 @@\n" [('-', "x\n")]).mdiff =
      [((1, "\x00-x\n\x01"), (0, "\n"), true)] ∧
    markupSbsPair 80 ((1, "\x00-x\n\x01"), ((0 : Nat), "\n"), true) =
      [sbsRow (fit_width (markup_old "x") 80) ""] ∧
    (stripAnsi "").length = 0 ∧
    fit_width "" 80 ≠ "" := by
  refine ⟨?_, ?_, ?_, rfl, ?_⟩
  · rw [parse_eval]
    rfl
  · simp only [Hunk.mdiff, Difflib.mdiff_eval]
    rfl
  · rfl
  · decide

/-- C8 (amended): `markup_side_by_side` renders every hunk row at the fixed
width 80 regardless of its `width` and `show_number` arguments; `_fit_width`
measures visible width after stripping ANSI escapes, right-pads content
narrower than 80 with spaces to exactly 80 visible columns keeping the
original markup as a prefix (nothing is dropped), and passes content of 80
or more visible columns through unmodified; and every emitted row has both
columns at least 80 visible columns wide — with a single exception: a
deletion row (changed, real old line number, blank new slot) carries an
empty right column of visible width 0, which is never padded. -/
theorem c8_sbs_padding :
    (∀ markup : String,
      ((stripAnsi markup).length < 80 →
        fit_width markup 80 = markup ++ spaces (80 - (stripAnsi markup).length) ∧
        (stripAnsi (fit_width markup 80)).length = 80) ∧
      (¬ (stripAnsi markup).length < 80 → fit_width markup 80 = markup)) ∧
    (∀ (d : Diff) (sn : Bool) (w : Option Int),
      d.markup_side_by_side sn w =
        d.headers.map markup_header ++
        [markup_old_path d.old_path, markup_new_path d.new_path] ++
        d.hunks.bind (fun h =>
          markup_hunk_header h.get_header :: h.mdiff.bind (markupSbsPair 80))) ∧
    (∀ (old new : Difflib.MSlot) (changed : Bool),
      ∃ left right : String,
        markupSbsPair 80 (old, new, changed) = [sbsRow left right] ∧
        80 ≤ (stripAnsi left).length ∧
        (80 ≤ (stripAnsi right).length ∨
          (right = "" ∧ changed = true ∧ old.1 ≠ 0 ∧ new.1 = 0))) := by
  have hfit : ∀ markup : String,
      ((stripAnsi markup).length < 80 →
        fit_width markup 80 = markup ++ spaces (80 - (stripAnsi markup).length) ∧
        (stripAnsi (fit_width markup 80)).length = 80) ∧
      (¬ (stripAnsi markup).length < 80 → fit_width markup 80 = markup) := by
    intro markup
    constructor
    · intro hlt
      have he : fit_width markup 80 = markup ++ spaces (80 - (stripAnsi markup).length) := by
        rw [fit_width, if_pos hlt]
      refine ⟨he, ?_⟩
      rw [he, stripAnsi_append_spaces]
      have h1 : ∀ t : String, t.length = t.data.length := fun t => rfl
      rw [h1, String.data_append, List.length_append]
      have h2 : (spaces (80 - (stripAnsi markup).length)).data.length =
          80 - (stripAnsi markup).length := by
        simp [spaces]
      rw [h2, ← h1]
      omega
    · intro hge
      rw [fit_width, if_neg hge]
  have hW : ∀ markup : String, 80 ≤ (stripAnsi (fit_width markup 80)).length := by
    intro markup
    by_cases hlt : (stripAnsi markup).length < 80
    · exact le_of_eq ((hfit markup).1 hlt).2.symm
    · rw [(hfit markup).2 hlt]
      omega
  refine ⟨hfit, fun d sn w => rfl, ?_⟩
  intro old new changed
  simp only [markupSbsPair]
  cases changed with
  | false =>
    rw [if_neg Bool.false_ne_true]
    exact ⟨_, _, rfl, hW _, Or.inl (hW _)⟩
  | true =>
    rw [if_pos rfl]
    by_cases h1 : old.1 = 0
    · rw [if_pos h1]
      refine ⟨_, _, rfl, ?_, Or.inl (hW _)⟩
      have hsp : stripAnsi (spaces 80) = spaces 80 := by
        show String.mk (stripAnsiAux 0 (List.replicate 80 ' ')) = spaces 80
        rw [stripAnsiAux_spaces]
        rfl
      rw [hsp]
      decide
    · rw [if_neg h1]
      by_cases h2 : new.1 = 0
      · rw [if_pos h2]
        exact ⟨_, _, rfl, hW _, Or.inr ⟨rfl, rfl, h1, h2⟩⟩
      · rw [if_neg h2]
        exact ⟨_, _, rfl, hW _, Or.inl (hW _)⟩

/-- A hunk whose line list was built by the parser: every pair is the
classification character and tail of an actual content line of the patch. -/
def HunkFromLines (hk : Hunk) : Prop :=
  ∃ cs : List String,
    (∀ c ∈ cs, (Udiff.is_old c || Udiff.is_new c || Udiff.is_common c) = true) ∧
    hk.hunk_list = cs.map (fun c => (firstCharD c ' ', strTail c))

set_option maxHeartbeats 3000000 in
/-- Every hunk of every parsed `Diff` is built from content lines
(fuel-indexed form, with the invariant carried through the parser state). -/
theorem parseUdiffFuel_hunks_from_lines :
    ∀ (fuel : Nat) (stream : List String) (st : PState) (ds : List Diff),
      (∀ hk ∈ st.hunks, HunkFromLines hk) →
      (∀ hk, st.hunk = some hk → HunkFromLines hk) →
      parseUdiffFuel fuel stream st = .ok ds →
      ∀ d ∈ ds, ∀ hk ∈ d.hunks, HunkFromLines hk := by
  intro fuel
  induction fuel with
  | zero => intro stream st ds h1 h2 h; simp [parseUdiffFuel] at h
  | succ fuel ih =>
    intro stream st ds h1 h2 h
    match stream with
    | [] =>
      obtain ⟨hds, opv, npv, hks, hkv⟩ := st
      simp only [parseUdiffFuel] at h
      simp only at h1 h2
      rcases opv with _ | op <;> rcases npv with _ | np <;> rcases hkv with _ | hk <;>
        dsimp only at h <;>
        first
          | simp only [reduceCtorEq] at h
          | (split_ifs at h <;>
             first
               | simp only [reduceCtorEq] at h
               | (injection h with h'
                  subst h'
                  intro d hd
                  simp at hd))
          | (injection h with h'
             subst h'
             intro d hd
             rw [List.mem_singleton] at hd
             subst hd
             intro hk' hhk'
             dsimp only at hhk'
             first
               | exact h1 hk' hhk'
               | (rcases List.mem_append.mp hhk' with hm | hm
                  · exact h1 hk' hm
                  · rw [List.mem_singleton] at hm
                    subst hm
                    exact h2 _ rfl))
    | line :: rest =>
      obtain ⟨hds, opv, npv, hks, hkv⟩ := st
      simp only [parseUdiffFuel] at h
      simp only at h1 h2
      rcases opv with _ | op <;> rcases npv with _ | np <;> rcases hkv with _ | hk <;>
        dsimp only at h <;>
        split_ifs at h <;>
        first
          | simp only [reduceCtorEq] at h
          | exact ih _ _ _ h1 h2 h
          | (refine ih _ _ _ h1 ?_ h
             intro hk' hhk'
             dsimp only at hhk'
             simp only [reduceCtorEq] at hhk')
          | (refine ih _ _ _ h1 ?_ h
             intro hk' hhk'
             injection hhk' with e
             subst e
             refine ⟨[], ?_, rfl⟩
             intro c hc
             simp at hc)
          | (refine ih _ _ _ ?_ ?_ h
             · intro hk' hm
               rcases List.mem_append.mp hm with hm' | hm'
               · exact h1 hk' hm'
               · rw [List.mem_singleton] at hm'
                 subst hm'
                 exact h2 _ rfl
             · intro hk' hhk'
               cases hhk')
          | (rename_i hcontent _
             refine ih _ _ _ h1 (fun hk' hhk' => ?_) h
             injection hhk' with e
             subst e
             obtain ⟨cs, hall, hmap⟩ := h2 hk rfl
             refine ⟨cs ++ [line], ?_, ?_⟩
             · intro c hc
               rcases List.mem_append.mp hc with hm | hm
               · exact hall c hm
               · rw [List.mem_singleton] at hm
                 subst hm
                 exact hcontent
             · simp only [Hunk.append, hmap, List.map_append, List.map_cons, List.map_nil])
          | (revert h
             cases hX : parseUdiffFuel fuel (line :: rest) emptyPState with
             | error e =>
               intro h
               simp only [Except.map, reduceCtorEq] at h
             | ok tail =>
               simp only [Except.map]
               intro h
               injection h with h'
               subst h'
               intro d hd
               rcases List.mem_cons.mp hd with rfl | hmem
               · intro hk' hhk'
                 dsimp only at hhk'
                 rcases List.mem_append.mp hhk' with hm | hm
                 · exact h1 hk' hm
                 · rw [List.mem_singleton] at hm
                   subst hm
                   exact h2 _ rfl
               · exact ih _ _ _ (by simp [emptyPState]) (by simp [emptyPState]) hX d hmem)

/-- Selecting a component through the parser's `(attr, tail)` encoding
commutes with filtering the underlying content lines. -/
theorem filter_snd_map (f : String → Char × String) (p : Char × String → Bool)
    (q : String → Bool) (hpq : ∀ c, p (f c) = q c) (cs : List String) :
    ((cs.map f).filter p).map Prod.snd = (cs.filter q).map (fun c => (f c).2) := by
  induction cs with
  | nil => rfl
  | cons c cs ih =>
    simp only [List.map_cons, List.filter_cons, hpq c]
    cases hq : q c <;> simp [hq, ih]

/-- C2: every hunk of every parsed `Diff` has a line list built exactly from
the patch's content lines as `(kind, text)` pairs, its old text is the
subsequence of lines with kind ≠ `'+'` (the `-`/space lines of the patch,
prefixes dropped, in order) and its new text is the subsequence with kind ≠
`'-'` (the `+`/space lines, prefixes dropped, in order) — so concatenating
across a `Diff`'s hunks reproduces the before/after content implied by the
patch. -/
theorem c2_reconstruction (stream : List String) (ds : List Diff)
    (hparse : parse stream = .ok ds) :
    ∀ d ∈ ds, ∀ hk ∈ d.hunks,
      ∃ cs : List String,
        (∀ c ∈ cs, (Udiff.is_old c || Udiff.is_new c || Udiff.is_common c) = true) ∧
        hk.hunk_list = cs.map (fun c => (firstCharD c ' ', strTail c)) ∧
        hk.get_old_text = (cs.filter (fun c => firstCharD c ' ' ≠ '+')).map strTail ∧
        hk.get_new_text = (cs.filter (fun c => firstCharD c ' ' ≠ '-')).map strTail := by
  intro d hd hk hhk
  rw [parse_eval] at hparse
  split at hparse
  · have hfl := parseUdiffFuel_hunks_from_lines _ _ _ _
      (by simp [emptyPState]) (by simp [emptyPState]) hparse d hd hk hhk
    obtain ⟨cs, hall, hmap⟩ := hfl
    refine ⟨cs, hall, hmap, ?_, ?_⟩
    · rw [Hunk.get_old_text, hmap]
      exact filter_snd_map _ _ _ (fun c => rfl) cs
    · rw [Hunk.get_new_text, hmap]
      exact filter_snd_map _ _ _ (fun c => rfl) cs
  · cases hparse

theorem c2_witness :
    ∃ cs : List String,
      (∀ c ∈ cs, (Udiff.is_old c || Udiff.is_new c || Udiff.is_common c) = true) ∧
      (Hunk.mk "@@ -1,2 +1 @@
" [('-', "a
"), ('-', "c
"), ('+', "b
")]).hunk_list =
        cs.map (fun c => (firstCharD c ' ', strTail c)) ∧
      (Hunk.mk "@@ -1,2 +1 @@
" [('-', "a
"), ('-', "c
"), ('+', "b
")]).get_old_text =
        (cs.filter (fun c => firstCharD c ' ' ≠ '+')).map strTail ∧
      (Hunk.mk "@@ -1,2 +1 @@
" [('-', "a
"), ('-', "c
"), ('+', "b
")]).get_new_text =
        (cs.filter (fun c => firstCharD c ' ' ≠ '-')).map strTail :=
  c2_reconstruction
    ["--- a
", "+++ b
", "@@ -1,2 +1 @@
", "-a
", "-c
", "+b
"]
    [⟨[], "--- a
", "+++ b
", [⟨"@@ -1,2 +1 @@
", [('-', "a
"), ('-', "c
"), ('+', "b
")]⟩]⟩]
    (by rw [parse_eval]; rfl)
    ⟨[], "--- a\n", "+++ b\n", [⟨"@@ -1,2 +1 @@\n", [('-', "a\n"), ('-', "c\n"), ('+', "b\n")]⟩]⟩
    (List.mem_singleton.mpr rfl)
    ⟨"@@ -1,2 +1 @@\n", [('-', "a\n"), ('-', "c\n"), ('+', "b\n")]⟩
    (List.mem_singleton.mpr rfl)

theorem c6_witness :
    (Diff.mk ["H\n"] "--- a\n" "+++ b\n" [⟨"@@ -1 +1 @@\n", [('-', "x\n")]⟩]).hunks ≠ [] :=
  c6_invariants.1
    ["--- a\n", "+++ b\n", "@@ -1 +1 @@\n", "-x\n", "H\n",
     "--- c\n", "+++ d\n", "@@ -1 +1 @@\n", "+y\n"]
    [⟨["H\n"], "--- a\n", "+++ b\n", [⟨"@@ -1 +1 @@\n", [('-', "x\n")]⟩]⟩,
     ⟨[], "--- c\n", "+++ d\n", [⟨"@@ -1 +1 @@\n", [('+', "y\n")]⟩]⟩]
    (by rw [parse_eval]; rfl)
    _ (by simp)

end Cdiff

/-! ## Round-trip development (C1)

The amended round-trip claim needs that the `ndiff` pipeline preserves each
side's line content in order.  This section proves, stage by stage, that
`Differ.compare` emits every line of `a` exactly once as a `'- '`/`'  '` line
(in order) and every line of `b` exactly once as a `'+ '`/`'  '` line, that
`_mdiff` turns those into from/to slots preserving both orders, and that
`markup_traditional` renders each row so that stripping the ANSI escapes
recovers the text. -/

namespace Difflib

section Slices

variable {α : Type} [DecidableEq α] [Inhabited α]

/-- `x[lo:hi]` for in-range slices. -/
def slice (l : List α) (lo hi : Nat) : List α :=
  (pyRange lo hi).map (fun i => l.getD i default)

theorem slice_empty (l : List α) {lo hi : Nat} (h : hi ≤ lo) : slice l lo hi = [] := by
  unfold slice pyRange
  rw [Nat.sub_eq_zero_of_le h]
  rfl

theorem slice_split (l : List α) {lo mid hi : Nat} (h1 : lo ≤ mid) (h2 : mid ≤ hi) :
    slice l lo hi = slice l lo mid ++ slice l mid hi := by
  unfold slice pyRange
  rw [← List.map_append]
  congr 1
  have h4 := List.range'_append lo (mid - lo) (hi - mid) 1
  simp only [one_mul] at h4
  rw [show lo + (mid - lo) = mid from by omega] at h4
  rw [show (hi - mid) + (mid - lo) = hi - lo from by omega] at h4
  exact h4.symm

theorem slice_one (l : List α) (lo : Nat) : slice l lo (lo + 1) = [l.getD lo default] := by
  unfold slice pyRange
  simp

theorem slice_all (l : List α) : slice l 0 l.length = l := by
  unfold slice pyRange
  rw [Nat.sub_zero]
  apply List.ext_getElem
  · simp
  · intro i h1 h2
    simp only [List.getElem_map, List.getElem_range']
    rw [List.getD_eq_getElem?_getD, List.getElem?_eq_getElem (by omega)]
    simp

end Slices

end Difflib

namespace Difflib

section MatchSound

variable {α : Type} [DecidableEq α] [Inhabited α]

/-- `k` consecutive matching elements starting at `(i, j)`. -/
def MatchAt (a b : List α) (i j k : Nat) : Prop :=
  ∀ m < k, a.getD (i + m) default = b.getD (j + m) default

/-- Soundness of a `b2j` map for `b`: every recorded index holds the key. -/
def Sound2BJ (b : List α) (b2j : List (α × List Nat)) : Prop :=
  ∀ p ∈ b2j, ∀ j ∈ p.2, b.getD j default = p.1

theorem chainBRaw_sound (b : List α) : Sound2BJ b (chainBRaw b) := by
  unfold chainBRaw
  have henum : ∀ p ∈ b.enum, b.getD p.1 default = p.2 := by
    intro p hp
    obtain ⟨i, x⟩ := p
    have hx := List.mem_enum_iff_getElem?.mp hp
    rw [List.getD_eq_getElem?_getD, hx]
    rfl
  refine List.foldlRecOn _ _ _ ?_ ?_
  · intro q hq; simp at hq
  · intro m hm p hp q hq j hj
    rcases alistSet_mem m p.2 (alistGetD m p.2 [] ++ [p.1]) q hq with he | hme
    · subst he
      simp only at hj ⊢
      rcases List.mem_append.mp hj with hj1 | hj2
      · rcases alistGetD_mem m p.2 ([] : List Nat) with hv | hv
        · rw [hv] at hj1; cases hj1
        · exact hm _ hv j hj1
      · rw [List.mem_singleton] at hj2
        subst hj2
        exact henum p hp
    · exact hm q hme j hj

theorem chainB_sound (isjunk : α → Bool) (autojunk : Bool) (b : List α) :
    Sound2BJ b (chainB isjunk autojunk b) := by
  intro p hp j hj
  have hp' : p ∈ chainBRaw b := by
    by_cases hc : autojunk ∧ b.length ≥ 200 <;>
      simp only [chainB, hc, if_true, if_false] at hp
    · exact (List.mem_filter.mp (List.mem_filter.mp hp).1).1
    · exact (List.mem_filter.mp hp).1
  exact chainBRaw_sound b p hp' j hj

/-- Entries of the previous row's `j2len` when processing row `i`: genuine
common runs ending at `(i - 1, j)`. -/
def J2Prev (a b : List α) (alo blo bhi i : Nat) (m : List (Nat × Nat)) : Prop :=
  ∀ p ∈ m, blo ≤ p.1 ∧ p.1 < bhi ∧ 1 ≤ p.2 ∧ p.2 ≤ p.1 + 1 - blo ∧ p.2 ≤ i - alo ∧
    ∀ k < p.2, a.getD (i - 1 - k) default = b.getD (p.1 - k) default

theorem flmInnerLoop_match (a b : List α) (alo blo bhi i : Nat) (hi1 : alo ≤ i)
    (j2len : List (Nat × Nat)) (hj : J2Prev a b alo blo bhi i j2len) :
    ∀ (js : List Nat) (acc : List (Nat × Nat) × FlmState),
      (∀ j ∈ js, b.getD j default = a.getD i default) →
      J2Prev a b alo blo bhi (i + 1) acc.1 →
      MatchAt a b acc.2.besti acc.2.bestj acc.2.bestsize →
      J2Prev a b alo blo bhi (i + 1) (flmInnerLoop j2len i blo bhi js acc).1 ∧
      MatchAt a b (flmInnerLoop j2len i blo bhi js acc).2.besti
        (flmInnerLoop j2len i blo bhi js acc).2.bestj
        (flmInnerLoop j2len i blo bhi js acc).2.bestsize := by
  intro js
  induction js with
  | nil => intro acc _ h1 h2; exact ⟨h1, h2⟩
  | cons j js ih =>
    rintro ⟨newj2len, best⟩ hjs h1 h2
    have hbj : b.getD j default = a.getD i default := hjs j (List.mem_cons_self j js)
    have hjs' : ∀ j' ∈ js, b.getD j' default = a.getD i default :=
      fun j' hj' => hjs j' (List.mem_cons_of_mem j hj')
    by_cases hlt : j < blo
    · simpa [flmInnerLoop, hlt] using ih (newj2len, best) hjs' h1 h2
    · by_cases hge : j ≥ bhi
      · simpa [flmInnerLoop, hlt, hge] using ⟨h1, h2⟩
      · have hblo : blo ≤ j := Nat.le_of_not_lt hlt
        have hbhi : j < bhi := Nat.lt_of_not_le hge
        -- the run recorded for (i, j)
        have hrun : 1 ≤ flmK j2len j ∧ flmK j2len j ≤ j + 1 - blo ∧
            flmK j2len j ≤ (i + 1) - alo ∧
            ∀ k < flmK j2len j, a.getD (i - k) default = b.getD (j - k) default := by
          by_cases hj0 : j = 0
          · have hk : flmK j2len j = 1 := by simp [flmK, hj0]
            rw [hk]
            refine ⟨le_rfl, by omega, by omega, ?_⟩
            intro k hk1
            have hk0 : k = 0 := by omega
            subst hk0
            simpa [hj0] using hbj.symm
          · rcases alistGetD_mem j2len (j - 1) (0 : Nat) with hv | hv
            · have hk : flmK j2len j = 1 := by simp [flmK, hj0, hv]
              rw [hk]
              refine ⟨le_rfl, by omega, by omega, ?_⟩
              intro k hk1
              have hk0 : k = 0 := by omega
              subst hk0
              simpa using hbj.symm
            · have hm := hj _ hv
              simp only at hm
              obtain ⟨hm1, hm2, hm3, hm4, hm5, hm6⟩ := hm
              have hk : flmK j2len j = alistGetD j2len (j - 1) 0 + 1 := by
                simp [flmK, hj0]
              rw [hk]
              refine ⟨by omega, by omega, by omega, ?_⟩
              intro k hk1
              match k with
              | 0 => simpa using hbj.symm
              | k' + 1 =>
                have hk' : k' < alistGetD j2len (j - 1) 0 := by omega
                have := hm6 k' hk'
                rw [show i - (k' + 1) = i - 1 - k' from by omega,
                  show j - (k' + 1) = j - 1 - k' from by omega]
                exact this
        have hmap : J2Prev a b alo blo bhi (i + 1)
            (alistSet newj2len j (flmK j2len j)) := by
          intro p hp
          rcases alistSet_mem newj2len j (flmK j2len j) p hp with hpe | hpm
          · subst hpe
            refine ⟨hblo, hbhi, hrun.1, hrun.2.1, by have := hrun.2.2.1; omega, ?_⟩
            intro k hk1
            have := hrun.2.2.2 k hk1
            simpa using this
          · exact h1 p hpm
        have hbest : MatchAt a b
            (if flmK j2len j > best.bestsize then
              FlmState.mk (i + 1 - flmK j2len j) (j + 1 - flmK j2len j) (flmK j2len j)
             else best).besti
            (if flmK j2len j > best.bestsize then
              FlmState.mk (i + 1 - flmK j2len j) (j + 1 - flmK j2len j) (flmK j2len j)
             else best).bestj
            (if flmK j2len j > best.bestsize then
              FlmState.mk (i + 1 - flmK j2len j) (j + 1 - flmK j2len j) (flmK j2len j)
             else best).bestsize := by
          split_ifs with hgt
          · intro m hm
            dsimp only at hm ⊢
            obtain ⟨hr1, hr2, hr3, hr4⟩ := hrun
            have hik : flmK j2len j ≤ i + 1 := by omega
            have hjk : flmK j2len j ≤ j + 1 := by omega
            have hm' : flmK j2len j - 1 - m < flmK j2len j := by omega
            have := hr4 (flmK j2len j - 1 - m) hm'
            rw [show i + 1 - flmK j2len j + m = i - (flmK j2len j - 1 - m) from by omega,
              show j + 1 - flmK j2len j + m = j - (flmK j2len j - 1 - m) from by omega]
            exact this
          · exact h2
        have heq : flmInnerLoop j2len i blo bhi (j :: js) (newj2len, best) =
            flmInnerLoop j2len i blo bhi js
              (alistSet newj2len j (flmK j2len j),
               if flmK j2len j > best.bestsize then
                 FlmState.mk (i + 1 - flmK j2len j) (j + 1 - flmK j2len j) (flmK j2len j)
               else best) := by
          simp [flmInnerLoop, hlt, hge]
        rw [heq]
        exact ih _ hjs' hmap hbest

end MatchSound

end Difflib

namespace Difflib

section MatchSound2

variable {α : Type} [DecidableEq α] [Inhabited α]

theorem flmRows_match_aux (b2j : List (α × List Nat)) (a b : List α)
    (hbj : Sound2BJ b b2j) (alo blo bhi : Nat) :
    ∀ (n s : Nat), alo ≤ s →
      ∀ (acc : List (Nat × Nat) × FlmState),
        J2Prev a b alo blo bhi s acc.1 →
        MatchAt a b acc.2.besti acc.2.bestj acc.2.bestsize →
        MatchAt a b
          (((List.range' s n).foldl
            (fun acc i =>
              flmInnerLoop acc.1 i blo bhi (alistGetD b2j (a.getD i default) []) ([], acc.2))
            acc).2.besti)
          (((List.range' s n).foldl
            (fun acc i =>
              flmInnerLoop acc.1 i blo bhi (alistGetD b2j (a.getD i default) []) ([], acc.2))
            acc).2.bestj)
          (((List.range' s n).foldl
            (fun acc i =>
              flmInnerLoop acc.1 i blo bhi (alistGetD b2j (a.getD i default) []) ([], acc.2))
            acc).2.bestsize) := by
  intro n
  induction n with
  | zero => intro s _ acc _ h2; simpa using h2
  | succ n ih =>
    intro s hs1 acc h1 h2
    rw [List.range'_succ, List.foldl_cons]
    have hjs : ∀ j ∈ alistGetD b2j (a.getD s default) [], b.getD j default = a.getD s default := by
      intro j hj
      rcases alistGetD_mem b2j (a.getD s default) ([] : List Nat) with hv | hv
      · rw [hv] at hj; cases hj
      · exact hbj _ hv j hj
    have hstep := flmInnerLoop_match a b alo blo bhi s hs1 acc.1 h1
      (alistGetD b2j (a.getD s default) []) ([], acc.2) hjs
      (by intro p hp; simp at hp) h2
    refine ih (s + 1) (by omega) _ ?_ hstep.2
    intro p hp
    exact hstep.1 p hp

theorem flmRows_match (b2j : List (α × List Nat)) (a b : List α)
    (hbj : Sound2BJ b b2j) (alo ahi blo bhi : Nat) :
    MatchAt a b (flmRows b2j a alo ahi blo bhi).2.besti
      (flmRows b2j a alo ahi blo bhi).2.bestj
      (flmRows b2j a alo ahi blo bhi).2.bestsize := by
  unfold flmRows pyRange
  exact flmRows_match_aux b2j a b hbj alo blo bhi (ahi - alo) alo le_rfl _
    (by intro p hp; simp at hp) (by intro m hm; simp at hm)

theorem extendLo_match (isjunk : α → Bool) (junkFlag : Bool) (a b : List α)
    (alo blo : Nat) :
    ∀ (besti bestj bestsize : Nat),
      MatchAt a b besti bestj bestsize →
      MatchAt a b (extendLo isjunk junkFlag a b alo blo besti bestj bestsize).besti
        (extendLo isjunk junkFlag a b alo blo besti bestj bestsize).bestj
        (extendLo isjunk junkFlag a b alo blo besti bestj bestsize).bestsize := by
  intro besti
  induction besti with
  | zero => intro bj bs h; simpa [extendLo] using h
  | succ besti ih =>
    intro bj bs h
    rw [extendLo]
    split_ifs with hc
    · refine ih _ _ ?_
      obtain ⟨hc1, hc2, hc3, hc4⟩ := hc
      intro m hm
      match m with
      | 0 =>
        rw [show besti + 0 = besti + 1 - 1 from by omega]
        simpa using hc4
      | m' + 1 =>
        have hh := h m' (by omega)
        rw [show besti + (m' + 1) = besti + 1 + m' from by omega,
          show bj - 1 + (m' + 1) = bj + m' from by omega]
        exact hh
    · exact h

theorem extendHiAux_match (isjunk : α → Bool) (junkFlag : Bool) (a b : List α)
    (ahi bhi besti bestj : Nat) :
    ∀ (room bestsize : Nat),
      MatchAt a b besti bestj bestsize →
      MatchAt a b (extendHiAux isjunk junkFlag a b ahi bhi besti bestj room bestsize).besti
        (extendHiAux isjunk junkFlag a b ahi bhi besti bestj room bestsize).bestj
        (extendHiAux isjunk junkFlag a b ahi bhi besti bestj room bestsize).bestsize := by
  intro room
  induction room with
  | zero => intro bs h; simpa [extendHiAux] using h
  | succ room ih =>
    intro bs h
    rw [extendHiAux]
    split_ifs with hc
    · refine ih _ ?_
      obtain ⟨hc1, hc2, hc3, hc4⟩ := hc
      intro m hm
      by_cases hms : m < bs
      · exact h m hms
      · have hmb : m = bs := by omega
        subst hmb
        exact hc4
    · exact h

theorem extendHi_match (isjunk : α → Bool) (junkFlag : Bool) (a b : List α)
    (ahi bhi besti bestj bestsize : Nat)
    (h : MatchAt a b besti bestj bestsize) :
    MatchAt a b (extendHi isjunk junkFlag a b ahi bhi besti bestj bestsize).besti
      (extendHi isjunk junkFlag a b ahi bhi besti bestj bestsize).bestj
      (extendHi isjunk junkFlag a b ahi bhi besti bestj bestsize).bestsize :=
  extendHiAux_match isjunk junkFlag a b ahi bhi besti bestj _ _ h

theorem find_longest_match_match (isjunk : α → Bool) (b2j : List (α × List Nat))
    (a b : List α) (hbj : Sound2BJ b b2j) (alo ahi blo bhi : Nat) :
    MatchAt a b (find_longest_match isjunk b2j a b alo ahi blo bhi).besti
      (find_longest_match isjunk b2j a b alo ahi blo bhi).bestj
      (find_longest_match isjunk b2j a b alo ahi blo bhi).bestsize := by
  unfold find_longest_match
  have h0 := flmRows_match b2j a b hbj alo ahi blo bhi
  have h1 := extendLo_match isjunk false a b alo blo _ _ _ h0
  have h2 := extendHi_match isjunk false a b ahi bhi _ _ _ h1
  have h3 := extendLo_match isjunk true a b alo blo _ _ _ h2
  exact extendHi_match isjunk true a b ahi bhi _ _ _ h3

end MatchSound2

end Difflib

namespace Difflib

section Blocks

variable {α : Type} [DecidableEq α] [Inhabited α]

/-- Matching blocks in chained order: each block lies within the bounds and
starts at or after the previous block's end. -/
def Chain (lo jlo ahi bhi : Nat) : List (Nat × Nat × Nat) → Prop
  | [] => True
  | (i, j, k) :: rest =>
    lo ≤ i ∧ i + k ≤ ahi ∧ jlo ≤ j ∧ j + k ≤ bhi ∧ Chain (i + k) (j + k) ahi bhi rest

/-- Every block is a genuine matching run. -/
def BlocksMatch (a b : List α) (blocks : List (Nat × Nat × Nat)) : Prop :=
  ∀ t ∈ blocks, MatchAt a b t.1 t.2.1 t.2.2

theorem chain_mono {lo jlo ahi bhi lo' jlo' ahi' bhi' : Nat}
    {blocks : List (Nat × Nat × Nat)} (h : Chain lo jlo ahi bhi blocks)
    (h1 : lo' ≤ lo) (h2 : jlo' ≤ jlo) (h3 : ahi ≤ ahi') (h4 : bhi ≤ bhi') :
    Chain lo' jlo' ahi' bhi' blocks := by
  induction blocks generalizing lo jlo lo' jlo' with
  | nil => trivial
  | cons t rest ih =>
    obtain ⟨i, j, k⟩ := t
    obtain ⟨g1, g2, g3, g4, g5⟩ := h
    exact ⟨by omega, by omega, by omega, by omega, ih g5 le_rfl le_rfl⟩

theorem chain_append {blocks1 blocks2 : List (Nat × Nat × Nat)}
    {lo jlo mid jmid ahi bhi : Nat}
    (h1 : Chain lo jlo mid jmid blocks1) (h2 : Chain mid jmid ahi bhi blocks2)
    (h3 : mid ≤ ahi) (h4 : jmid ≤ bhi) (h5 : lo ≤ mid) (h6 : jlo ≤ jmid) :
    Chain lo jlo ahi bhi (blocks1 ++ blocks2) := by
  induction blocks1 generalizing lo jlo with
  | nil =>
    exact chain_mono h2 h5 h6 le_rfl le_rfl
  | cons t rest ih =>
    obtain ⟨i, j, k⟩ := t
    obtain ⟨g1, g2, g3, g4, g5⟩ := h1
    exact ⟨g1, by omega, g3, by omega, ih g5 g2 g4⟩

theorem matchBlocksFuel_chain (isjunk : α → Bool) (b2j : List (α × List Nat))
    (a b : List α) (hbj : Sound2BJ b b2j) :
    ∀ (fuel alo ahi blo bhi : Nat),
      Chain alo blo ahi bhi (matchBlocksFuel isjunk b2j a b fuel alo ahi blo bhi) ∧
      BlocksMatch a b (matchBlocksFuel isjunk b2j a b fuel alo ahi blo bhi) := by
  intro fuel
  induction fuel with
  | zero =>
    intro alo ahi blo bhi
    exact ⟨trivial, by intro t ht; simp [matchBlocksFuel] at ht⟩
  | succ fuel ih =>
    intro alo ahi blo bhi
    rw [matchBlocksFuel]
    have hinv := find_longest_match_inv isjunk b2j a b alo ahi blo bhi
    have hmat := find_longest_match_match isjunk b2j a b hbj alo ahi blo bhi
    generalize hst : find_longest_match isjunk b2j a b alo ahi blo bhi = st at hinv hmat ⊢
    obtain ⟨bi, bj, bs⟩ := st
    simp only [BestInv] at hinv
    simp only at hmat
    dsimp only
    by_cases hk : bs = 0
    · rw [if_pos hk]
      exact ⟨trivial, by intro t ht; simp at ht⟩
    · rw [if_neg hk]
      rcases hinv with ⟨hz, -, -⟩ | ⟨h1, h2, h3, h4⟩
      · exact absurd hz hk
      · have hL : Chain alo blo bi bj
            (if alo < bi ∧ blo < bj then matchBlocksFuel isjunk b2j a b fuel alo bi blo bj
             else []) ∧
            BlocksMatch a b
            (if alo < bi ∧ blo < bj then matchBlocksFuel isjunk b2j a b fuel alo bi blo bj
             else []) := by
          split_ifs with hc
          · exact ih alo bi blo bj
          · exact ⟨trivial, by intro t ht; simp at ht⟩
        have hR : Chain (bi + bs) (bj + bs) ahi bhi
            (if bi + bs < ahi ∧ bj + bs < bhi then
              matchBlocksFuel isjunk b2j a b fuel (bi + bs) ahi (bj + bs) bhi
             else []) ∧
            BlocksMatch a b
            (if bi + bs < ahi ∧ bj + bs < bhi then
              matchBlocksFuel isjunk b2j a b fuel (bi + bs) ahi (bj + bs) bhi
             else []) := by
          split_ifs with hc
          · exact ih (bi + bs) ahi (bj + bs) bhi
          · exact ⟨trivial, by intro t ht; simp at ht⟩
        constructor
        · rw [List.append_assoc]
          refine chain_append hL.1 ?_ (by omega) (by omega) (by omega) (by omega)
          exact ⟨le_rfl, h2, le_rfl, h4, hR.1⟩
        · intro t ht
          rcases List.mem_append.mp ht with ht1 | ht2
          · rcases List.mem_append.mp ht1 with ht3 | ht4
            · exact hL.2 t ht3
            · rw [List.mem_singleton] at ht4
              subst ht4
              exact hmat
          · exact hR.2 t ht2

theorem collapseAdj_spec (a b : List α) (ahi bhi : Nat) :
    ∀ (blocks : List (Nat × Nat × Nat)) (lo jlo i1 j1 k1 : Nat),
      Chain (i1 + k1) (j1 + k1) ahi bhi blocks → BlocksMatch a b blocks →
      MatchAt a b i1 j1 k1 →
      lo ≤ i1 → jlo ≤ j1 → i1 + k1 ≤ ahi → j1 + k1 ≤ bhi →
      Chain lo jlo ahi bhi (collapseAdj blocks i1 j1 k1) ∧
      BlocksMatch a b (collapseAdj blocks i1 j1 k1) := by
  intro blocks
  induction blocks with
  | nil =>
    intro lo jlo i1 j1 k1 hc hm hpm hlo hjlo hb1 hb2
    rw [collapseAdj]
    split_ifs with hk
    · exact ⟨⟨hlo, hb1, hjlo, hb2, trivial⟩,
        by intro t ht; rw [List.mem_singleton] at ht; subst ht; exact hpm⟩
    · exact ⟨trivial, by intro t ht; simp at ht⟩
  | cons t rest ih =>
    obtain ⟨i2, j2, k2⟩ := t
    intro lo jlo i1 j1 k1 hc hm hpm hlo hjlo hb1 hb2
    obtain ⟨g1, g2, g3, g4, g5⟩ := hc
    have hm2 : MatchAt a b i2 j2 k2 := hm _ (List.mem_cons_self _ _)
    have hmrest : BlocksMatch a b rest := fun t ht => hm t (List.mem_cons_of_mem _ ht)
    rw [collapseAdj]
    split_ifs with hadj hk
    · obtain ⟨ha1, ha2⟩ := hadj
      refine ih lo jlo i1 j1 (k1 + k2) ?_ hmrest ?_ hlo hjlo (by omega) (by omega)
      · rw [show i1 + (k1 + k2) = i2 + k2 from by omega,
          show j1 + (k1 + k2) = j2 + k2 from by omega]
        exact g5
      · intro m hm'
        by_cases hmk : m < k1
        · exact hpm m hmk
        · have he1 := hm2 (m - k1) (by omega)
          rw [show i1 + m = i2 + (m - k1) from by omega,
            show j1 + m = j2 + (m - k1) from by omega]
          exact he1
    · have hrest := ih (i1 + k1) (j1 + k1) i2 j2 k2 g5 hmrest hm2 g1 g3 g2 g4
      refine ⟨⟨hlo, hb1, hjlo, hb2, hrest.1⟩, ?_⟩
      intro t ht
      rcases List.mem_cons.mp ht with ht1 | ht2
      · subst ht1; exact hpm
      · exact hrest.2 t ht2
    · have hrest := ih (i1 + k1) (j1 + k1) i2 j2 k2 g5 hmrest hm2 g1 g3 g2 g4
      refine ⟨chain_mono hrest.1 (by omega) (by omega) le_rfl le_rfl, ?_⟩
      intro t ht
      exact hrest.2 t (by simpa using ht)

/-- The last block of `get_matching_blocks` is the `(len(a), len(b), 0)`
sentinel. -/
def EndsAt (la lb : Nat) (blocks : List (Nat × Nat × Nat)) : Prop :=
  ∃ i j k, blocks.getLast? = some (i, j, k) ∧ i + k = la ∧ j + k = lb

theorem get_matching_blocks_spec (isjunk : α → Bool) (b2j : List (α × List Nat))
    (a b : List α) (hbj : Sound2BJ b b2j) :
    Chain 0 0 a.length b.length (get_matching_blocks isjunk b2j a b) ∧
    BlocksMatch a b (get_matching_blocks isjunk b2j a b) ∧
    EndsAt a.length b.length (get_matching_blocks isjunk b2j a b) := by
  have hmb := matchBlocksFuel_chain isjunk b2j a b hbj
    (a.length + b.length + 1) 0 a.length 0 b.length
  unfold get_matching_blocks
  generalize hBL : matchBlocksFuel isjunk b2j a b (a.length + b.length + 1)
    0 a.length 0 b.length = BL at hmb ⊢
  have hcol := collapseAdj_spec a b a.length b.length BL 0 0 0 0 0
    (by simpa using hmb.1) hmb.2 (by intro m hm; omega)
    le_rfl le_rfl (by omega) (by omega)
  generalize hCO : collapseAdj BL 0 0 0 = CO at hcol ⊢
  refine ⟨?_, ?_, ?_⟩
  · refine chain_append hcol.1 ?_ le_rfl le_rfl (by omega) (by omega)
    exact ⟨le_rfl, by omega, le_rfl, by omega, trivial⟩
  · intro t ht
    rcases List.mem_append.mp ht with ht1 | ht2
    · exact hcol.2 t ht1
    · rw [List.mem_singleton] at ht2
      subst ht2
      intro m hm
      simp at hm
  · exact ⟨a.length, b.length, 0, by rw [List.getLast?_concat], by omega, by omega⟩

end Blocks

end Difflib

namespace Difflib

section Sides

/-- Pick out the old-file payload of a `Differ.compare` output line: a line
tagged `'- '` or `'  '` contributes its text (prefix dropped), any other
line contributes nothing. -/
def tagOld (s : String) : List String :=
  if Cdiff.strStarts s "- " ∨ Cdiff.strStarts s "  " then [Cdiff.strDrop2 s] else []

/-- Pick out the new-file payload of a `Differ.compare` output line. -/
def tagNew (s : String) : List String :=
  if Cdiff.strStarts s "+ " ∨ Cdiff.strStarts s "  " then [Cdiff.strDrop2 s] else []

theorem strStarts_two (s pre : String) {c₁ c₂ : Char} {t : List Char}
    (hd : s.data = c₁ :: c₂ :: t) (hp : pre.data = [c₁, c₂]) :
    Cdiff.strStarts s pre = true := by
  rw [Cdiff.strStarts, hd, hp]
  exact List.isPrefixOf_iff_prefix.mpr ⟨t, rfl⟩

theorem strDrop2_two {s : String} {c₁ c₂ : Char} {t : List Char}
    (hd : s.data = c₁ :: c₂ :: t) : Cdiff.strDrop2 s = String.mk t := by
  rw [Cdiff.strDrop2, hd]
  rfl

theorem tagOld_dash (x : String) : tagOld ("- " ++ x) = [x] := by
  rw [tagOld,
    if_pos (Or.inl (strStarts_two ("- " ++ x) "- " (t := x.data) rfl rfl)),
    strDrop2_two (s := "- " ++ x) (t := x.data) rfl]

theorem tagOld_space2 (x : String) : tagOld ("  " ++ x) = [x] := by
  rw [tagOld,
    if_pos (Or.inr (strStarts_two ("  " ++ x) "  " (t := x.data) rfl rfl)),
    strDrop2_two (s := "  " ++ x) (t := x.data) rfl]

theorem tagNew_plus (x : String) : tagNew ("+ " ++ x) = [x] := by
  rw [tagNew,
    if_pos (Or.inl (strStarts_two ("+ " ++ x) "+ " (t := x.data) rfl rfl)),
    strDrop2_two (s := "+ " ++ x) (t := x.data) rfl]

theorem tagNew_space2 (x : String) : tagNew ("  " ++ x) = [x] := by
  rw [tagNew,
    if_pos (Or.inr (strStarts_two ("  " ++ x) "  " (t := x.data) rfl rfl)),
    strDrop2_two (s := "  " ++ x) (t := x.data) rfl]

theorem tagOld_none {s : String} {c : Char} {t : List Char} (hd : s.data = c :: t)
    (h1 : c ≠ '-') (h2 : c ≠ ' ') : tagOld s = [] := by
  rw [tagOld, if_neg]
  rintro (h | h)
  · rw [Cdiff.strStarts_false_of_head "- " hd rfl h1] at h
    exact Bool.false_ne_true h
  · rw [Cdiff.strStarts_false_of_head "  " hd rfl h2] at h
    exact Bool.false_ne_true h

theorem tagNew_none {s : String} {c : Char} {t : List Char} (hd : s.data = c :: t)
    (h1 : c ≠ '+') (h2 : c ≠ ' ') : tagNew s = [] := by
  rw [tagNew, if_neg]
  rintro (h | h)
  · rw [Cdiff.strStarts_false_of_head "+ " hd rfl h1] at h
    exact Bool.false_ne_true h
  · rw [Cdiff.strStarts_false_of_head "  " hd rfl h2] at h
    exact Bool.false_ne_true h

theorem tagOld_plus (x : String) : tagOld ("+ " ++ x) = [] :=
  tagOld_none (t := ' ' :: x.data) rfl (by decide) (by decide)

theorem tagNew_dash (x : String) : tagNew ("- " ++ x) = [] :=
  tagNew_none (t := ' ' :: x.data) rfl (by decide) (by decide)

theorem tagOld_guide (g : List Char) : tagOld ("? " ++ String.mk g ++ "\n") = [] :=
  tagOld_none (t := ' ' :: (g ++ ['\n'])) rfl (by decide) (by decide)

theorem tagNew_guide (g : List Char) : tagNew ("? " ++ String.mk g ++ "\n") = [] :=
  tagNew_none (t := ' ' :: (g ++ ['\n'])) rfl (by decide) (by decide)

theorem default_str : (default : String) = "" := rfl

theorem map_flatMap_eq_map {α β γ : Type} {l : List α} {f : α → β} {g : β → List γ}
    {h : α → γ} (H : ∀ x ∈ l, g (f x) = [h x]) : (l.map f).flatMap g = l.map h := by
  induction l with
  | nil => rfl
  | cons a t ih =>
    rw [List.map_cons, List.flatMap_cons, H a (List.mem_cons_self a t),
      ih (fun x hx => H x (List.mem_cons_of_mem a hx)), List.map_cons,
      List.singleton_append]

theorem map_flatMap_eq_nil {α β γ : Type} {l : List α} {f : α → β} {g : β → List γ}
    (H : ∀ x ∈ l, g (f x) = []) : (l.map f).flatMap g = [] := by
  induction l with
  | nil => rfl
  | cons a t ih =>
    rw [List.map_cons, List.flatMap_cons, H a (List.mem_cons_self a t),
      ih (fun x hx => H x (List.mem_cons_of_mem a hx)), List.nil_append]

theorem dump_old_minus (a : List String) (lo hi : Nat) :
    (dump "-" a lo hi).flatMap tagOld = slice a lo hi := by
  refine map_flatMap_eq_map ?_
  intro i _
  exact tagOld_dash (a.getD i "")

theorem dump_new_minus (a : List String) (lo hi : Nat) :
    (dump "-" a lo hi).flatMap tagNew = [] := by
  refine map_flatMap_eq_nil ?_
  intro i _
  exact tagNew_dash (a.getD i "")

theorem dump_old_plus (b : List String) (lo hi : Nat) :
    (dump "+" b lo hi).flatMap tagOld = [] := by
  refine map_flatMap_eq_nil ?_
  intro i _
  exact tagOld_plus (b.getD i "")

theorem dump_new_plus (b : List String) (lo hi : Nat) :
    (dump "+" b lo hi).flatMap tagNew = slice b lo hi := by
  refine map_flatMap_eq_map ?_
  intro i _
  exact tagNew_plus (b.getD i "")

theorem dump_old_space (a : List String) (lo hi : Nat) :
    (dump " " a lo hi).flatMap tagOld = slice a lo hi := by
  refine map_flatMap_eq_map ?_
  intro i _
  exact tagOld_space2 (a.getD i "")

theorem dump_new_space (a : List String) (lo hi : Nat) :
    (dump " " a lo hi).flatMap tagNew = slice a lo hi := by
  refine map_flatMap_eq_map ?_
  intro i _
  exact tagNew_space2 (a.getD i "")

theorem qformat_old (aline bline : String) (atags btags : List Char) :
    (qformat aline bline atags btags).flatMap tagOld = [aline] := by
  simp only [qformat]
  generalize Cdiff.rstripWs (keep_original_ws aline.data atags) = A
  generalize Cdiff.rstripWs (keep_original_ws bline.data btags) = B
  split_ifs <;>
    simp [List.flatMap_append, List.flatMap_cons, List.flatMap_nil,
      tagOld_dash, tagOld_plus, tagOld_guide]

theorem qformat_new (aline bline : String) (atags btags : List Char) :
    (qformat aline bline atags btags).flatMap tagNew = [bline] := by
  simp only [qformat]
  generalize Cdiff.rstripWs (keep_original_ws aline.data atags) = A
  generalize Cdiff.rstripWs (keep_original_ws bline.data btags) = B
  split_ifs <;>
    simp [List.flatMap_append, List.flatMap_cons, List.flatMap_nil,
      tagNew_dash, tagNew_plus, tagNew_guide]

theorem fancySearch_eq_pair (a b : List String) (alo ahi blo bhi : Nat) :
    ∀ i j, (fancySearch a b alo ahi blo bhi).eq_ij = some (i, j) →
      a.getD i "" = b.getD j "" := by
  unfold fancySearch
  refine List.foldlRecOn (motive := fun (st : FancyBest) => ∀ i j, st.eq_ij = some (i, j) →
    a.getD i "" = b.getD j "") _ _ _ ?_ ?_
  · intro i j h
    simp at h
  · intro st hst j hj
    refine List.foldlRecOn (motive := fun (st : FancyBest) => ∀ i j, st.eq_ij = some (i, j) →
      a.getD i "" = b.getD j "") _ _ _ hst ?_
    intro st' hst' i hi
    dsimp only
    by_cases he : a.getD i "" = b.getD j ""
    · rw [if_pos he]
      by_cases hn : st'.eq_ij = none
      · rw [if_pos hn]
        intro i' j' heq
        simp only [Option.some.injEq, Prod.mk.injEq] at heq
        obtain ⟨rfl, rfl⟩ := heq
        exact he
      · rw [if_neg hn]
        exact hst'
    · rw [if_neg he]
      by_cases hr : realQuickRatioQ (a.getD i "").data (b.getD j "").data > st'.best_ratio ∧
          quickRatioQ (a.getD i "").data (b.getD j "").data > st'.best_ratio ∧
          ratioChars (a.getD i "") (b.getD j "") > st'.best_ratio
      · rw [if_pos hr]
        intro i' j' heq
        exact hst' i' j' heq
      · rw [if_neg hr]
        exact hst'

/-- `_fancy_replace` never loses a line: its output, filtered to the
old-file side, is exactly `a[alo:ahi]`, and filtered to the new-file side it
is exactly `b[blo:bhi]`; likewise for `_fancy_helper`. -/
theorem fancy_sides (a b : List String) : ∀ fuel alo ahi blo bhi,
    (2 * ((ahi - alo) + (bhi - blo)) < fuel →
      (fancy_replace a b alo ahi blo bhi).flatMap tagOld = slice a alo ahi ∧
      (fancy_replace a b alo ahi blo bhi).flatMap tagNew = slice b blo bhi) ∧
    (2 * ((ahi - alo) + (bhi - blo)) + 1 < fuel →
      (fancy_helper a b alo ahi blo bhi).flatMap tagOld = slice a alo ahi ∧
      (fancy_helper a b alo ahi blo bhi).flatMap tagNew = slice b blo bhi) := by
  intro fuel
  induction fuel with
  | zero =>
    intro alo ahi blo bhi
    exact ⟨fun h => absurd h (by omega), fun h => absurd h (by omega)⟩
  | succ fuel ih =>
    intro alo ahi blo bhi
    constructor
    · intro h
      rw [fancy_replace]
      have hinv := fancySearch_inv a b alo ahi blo bhi
      have heqp := fancySearch_eq_pair a b alo ahi blo bhi
      generalize hfs : fancySearch a b alo ahi blo bhi = fs at hinv heqp ⊢
      obtain ⟨br, bi, bj, eij⟩ := fs
      dsimp only
      by_cases hc : br < mkRat 3 4
      · rw [dif_pos hc]
        rcases eij with _ | ⟨ei, ej⟩
        · dsimp only
          rw [plain_replace]
          split_ifs with hlen
          · constructor
            · rw [List.flatMap_append, dump_old_plus, dump_old_minus, List.nil_append]
            · rw [List.flatMap_append, dump_new_plus, dump_new_minus, List.append_nil]
          · constructor
            · rw [List.flatMap_append, dump_old_minus, dump_old_plus, List.append_nil]
            · rw [List.flatMap_append, dump_new_minus, dump_new_plus, List.nil_append]
        · have he := hinv.2 ei ej rfl
          have heq : a.getD ei "" = b.getD ej "" := heqp ei ej rfl
          dsimp only
          obtain ⟨ih1o, ih1n⟩ := (ih alo ei blo ej).2 (by omega)
          obtain ⟨ih2o, ih2n⟩ := (ih (ei + 1) ahi (ej + 1) bhi).2 (by omega)
          constructor
          · simp only [List.flatMap_append, List.flatMap_cons, List.flatMap_nil]
            rw [ih1o, ih2o, tagOld_space2]
            conv_rhs => rw [slice_split a (show alo ≤ ei from he.1)
                (show ei ≤ ahi from by omega),
              slice_split a (show ei ≤ ei + 1 from by omega)
                (show ei + 1 ≤ ahi from by omega),
              slice_one]
            rw [default_str]
            simp [List.append_assoc]
          · simp only [List.flatMap_append, List.flatMap_cons, List.flatMap_nil]
            rw [ih1n, ih2n, tagNew_space2, heq]
            conv_rhs => rw [slice_split b (show blo ≤ ej from he.2.2.1)
                (show ej ≤ bhi from by omega),
              slice_split b (show ej ≤ ej + 1 from by omega)
                (show ej + 1 ≤ bhi from by omega),
              slice_one]
            rw [default_str]
            simp [List.append_assoc]
      · rw [dif_neg hc]
        have hb := hinv.1 (le_of_not_lt hc)
        dsimp only at hb
        obtain ⟨ih1o, ih1n⟩ := (ih alo bi blo bj).2 (by omega)
        obtain ⟨ih2o, ih2n⟩ := (ih (bi + 1) ahi (bj + 1) bhi).2 (by omega)
        constructor
        · simp only [List.flatMap_append]
          rw [ih1o, ih2o, qformat_old]
          conv_rhs => rw [slice_split a (show alo ≤ bi from hb.1)
              (show bi ≤ ahi from by omega),
            slice_split a (show bi ≤ bi + 1 from by omega)
              (show bi + 1 ≤ ahi from by omega),
            slice_one]
          rw [default_str]
          simp [List.append_assoc]
        · simp only [List.flatMap_append]
          rw [ih1n, ih2n, qformat_new]
          conv_rhs => rw [slice_split b (show blo ≤ bj from hb.2.2.1)
              (show bj ≤ bhi from by omega),
            slice_split b (show bj ≤ bj + 1 from by omega)
              (show bj + 1 ≤ bhi from by omega),
            slice_one]
          rw [default_str]
          simp [List.append_assoc]
    · intro h
      rw [fancy_helper]
      by_cases h1 : alo < ahi
      · rw [if_pos h1]
        by_cases h2 : blo < bhi
        · rw [if_pos h2]
          exact (ih alo ahi blo bhi).1 (by omega)
        · rw [if_neg h2]
          refine ⟨dump_old_minus a alo ahi, ?_⟩
          rw [dump_new_minus]
          exact (slice_empty b (by omega)).symm
      · rw [if_neg h1]
        by_cases h2 : blo < bhi
        · rw [if_pos h2]
          refine ⟨?_, dump_new_plus b blo bhi⟩
          rw [dump_old_plus]
          exact (slice_empty a (by omega)).symm
        · rw [if_neg h2]
          refine ⟨?_, ?_⟩
          · rw [List.flatMap_nil]
            exact (slice_empty a (by omega)).symm
          · rw [List.flatMap_nil]
            exact (slice_empty b (by omega)).symm

/-- The per-opcode line emission of `Differ.compare`. -/
def opLines (a b : List String) (op : String × Nat × Nat × Nat × Nat) : List String :=
  match op with
  | (tag, alo, ahi, blo, bhi) =>
    if tag = "replace" then fancy_replace a b alo ahi blo bhi
    else if tag = "delete" then dump "-" a alo ahi
    else if tag = "insert" then dump "+" b blo bhi
    else dump " " a alo ahi

theorem compare_eq_opLines (a b : List String) :
    compare a b = (get_opcodes lineJunk (chainB lineJunk true b) a b).flatMap (opLines a b) := by
  unfold compare
  refine congrArg _ (funext fun op => ?_)
  obtain ⟨tag, alo, ahi, blo, bhi⟩ := op
  rfl

/-- Threading the opcode cursor: starting from `(i, j)`, after all blocks the
cursor ends exactly at `(la, lb)`. -/
def EndsAtFrom (la lb : Nat) : Nat → Nat → List (Nat × Nat × Nat) → Prop
  | i, j, [] => i = la ∧ j = lb
  | _, _, (i0, j0, k0) :: rest => EndsAtFrom la lb (i0 + k0) (j0 + k0) rest

theorem endsAtFrom_of_endsAt {la lb : Nat} : ∀ {blocks : List (Nat × Nat × Nat)},
    EndsAt la lb blocks → ∀ i j, EndsAtFrom la lb i j blocks := by
  intro blocks
  induction blocks with
  | nil =>
    intro h i j
    obtain ⟨i0, j0, k0, h1, -, -⟩ := h
    rw [List.getLast?_nil] at h1
    exact Option.noConfusion h1
  | cons t rest ih =>
    obtain ⟨i2, j2, k2⟩ := t
    intro h i j
    show EndsAtFrom la lb (i2 + k2) (j2 + k2) rest
    cases rest with
    | nil =>
      obtain ⟨i0, j0, k0, h1, h2, h3⟩ := h
      rw [List.getLast?_singleton] at h1
      injection h1 with h1
      obtain ⟨rfl, rfl, rfl⟩ : i2 = i0 ∧ j2 = j0 ∧ k2 = k0 := by
        simpa [Prod.ext_iff] using h1
      exact ⟨h2, h3⟩
    | cons y tl =>
      refine ih ?_ (i2 + k2) (j2 + k2)
      obtain ⟨i0, j0, k0, h1, h2, h3⟩ := h
      rw [List.getLast?_cons_cons] at h1
      exact ⟨i0, j0, k0, h1, h2, h3⟩

/-- Slices over a genuine matching run are equal. -/
theorem slice_congr {α : Type} [DecidableEq α] [Inhabited α] {a b : List α} {i j k : Nat}
    (h : MatchAt a b i j k) : slice a i (i + k) = slice b j (j + k) := by
  unfold slice pyRange
  rw [show i + k - i = k from by omega, show j + k - j = k from by omega]
  apply List.ext_getElem
  · simp
  · intro m h1 h2
    simp only [List.getElem_map, List.getElem_range']
    have hm : m < k := by simpa using h1
    have hx := h m hm
    simpa using hx

/-- Telescoping the opcode fold: given a chained, genuinely matching block
list whose cursor ends at `(len a, len b)`, the emitted delta holds exactly
`a[i:]` on the old side and `b[j:]` on the new side. -/
theorem opcodeFold_sides (a b : List String) :
    ∀ (blocks : List (Nat × Nat × Nat)) (i j : Nat),
      Chain i j a.length b.length blocks →
      BlocksMatch a b blocks →
      EndsAtFrom a.length b.length i j blocks →
      ((opcodeFold blocks i j).flatMap (opLines a b)).flatMap tagOld =
        slice a i a.length ∧
      ((opcodeFold blocks i j).flatMap (opLines a b)).flatMap tagNew =
        slice b j b.length := by
  intro blocks
  induction blocks with
  | nil =>
    intro i j hc hm he
    obtain ⟨h1, h2⟩ := he
    constructor
    · rw [opcodeFold, List.flatMap_nil, List.flatMap_nil]
      exact (slice_empty a (by omega)).symm
    · rw [opcodeFold, List.flatMap_nil, List.flatMap_nil]
      exact (slice_empty b (by omega)).symm
  | cons t rest ih =>
    obtain ⟨ai, bj, size⟩ := t
    intro i j hc hm he
    obtain ⟨g1, g2, g3, g4, g5⟩ := hc
    have hm1 : MatchAt a b ai bj size := hm _ (List.mem_cons_self _ _)
    have hmrest : BlocksMatch a b rest := fun t ht => hm t (List.mem_cons_of_mem _ ht)
    have herest : EndsAtFrom a.length b.length (ai + size) (bj + size) rest := he
    obtain ⟨iho, ihn⟩ := ih (ai + size) (bj + size) g5 hmrest herest
    rw [opcodeFold]
    have hEo : (if size ≠ 0 then
          [("equal", ai, ai + size, bj, bj + size)] else []).flatMap (opLines a b) =
        dump " " a ai (ai + size) := by
      split_ifs with hsz
      · rw [List.flatMap_cons, List.flatMap_nil, List.append_nil]
        rfl
      · rw [List.flatMap_nil]
        rw [show ai + size = ai from by omega]
        rw [dump, pyRange, show ai - ai = 0 from by omega, List.range', List.map_nil]
    by_cases hrb : i < ai ∧ j < bj
    · rw [if_pos hrb, if_pos (show ¬(("replace" : String) = "") from by decide)]
      have hT : opLines a b ("replace", i, ai, j, bj) = fancy_replace a b i ai j bj := rfl
      obtain ⟨hfo, hfn⟩ := (fancy_sides a b (2 * ((ai - i) + (bj - j)) + 1) i ai j bj).1
        (by omega)
      constructor
      · simp only [List.flatMap_append, List.flatMap_cons, List.flatMap_nil,
          List.append_nil, hEo, hT]
        rw [hfo, iho, dump_old_space]
        conv_rhs => rw [slice_split a (show i ≤ ai from by omega)
            (show ai ≤ a.length from by omega),
          slice_split a (show ai ≤ ai + size from by omega)
            (show ai + size ≤ a.length from by omega)]
        simp [List.append_assoc]
      · simp only [List.flatMap_append, List.flatMap_cons, List.flatMap_nil,
          List.append_nil, hEo, hT]
        rw [hfn, ihn, dump_new_space, slice_congr hm1]
        conv_rhs => rw [slice_split b (show j ≤ bj from by omega)
            (show bj ≤ b.length from by omega),
          slice_split b (show bj ≤ bj + size from by omega)
            (show bj + size ≤ b.length from by omega)]
        simp [List.append_assoc]
    · by_cases hdel : i < ai
      · have hjj : j = bj := by omega
        subst hjj
        rw [if_neg hrb, if_pos hdel, if_pos (show ¬(("delete" : String) = "") from by decide)]
        have hT : opLines a b ("delete", i, ai, j, j) = dump "-" a i ai := rfl
        constructor
        · simp only [List.flatMap_append, List.flatMap_cons, List.flatMap_nil,
            List.append_nil, hEo, hT]
          rw [dump_old_minus, iho, dump_old_space]
          conv_rhs => rw [slice_split a (show i ≤ ai from by omega)
              (show ai ≤ a.length from by omega),
            slice_split a (show ai ≤ ai + size from by omega)
              (show ai + size ≤ a.length from by omega)]
          simp [List.append_assoc]
        · simp only [List.flatMap_append, List.flatMap_cons, List.flatMap_nil,
            List.append_nil, hEo, hT]
          rw [dump_new_minus, ihn, dump_new_space, slice_congr hm1]
          conv_rhs => rw [slice_split b (show j ≤ j + size from by omega)
              (show j + size ≤ b.length from by omega)]
          simp [List.append_assoc]
      · by_cases hins : j < bj
        · have hii : i = ai := by omega
          subst hii
          rw [if_neg hrb, if_neg hdel, if_pos hins,
            if_pos (show ¬(("insert" : String) = "") from by decide)]
          have hT : opLines a b ("insert", i, i, j, bj) = dump "+" b j bj := rfl
          constructor
          · simp only [List.flatMap_append, List.flatMap_cons, List.flatMap_nil,
              List.append_nil, hEo, hT]
            rw [dump_old_plus, iho, dump_old_space]
            conv_rhs => rw [slice_split a (show i ≤ i + size from by omega)
                (show i + size ≤ a.length from by omega)]
            simp [List.append_assoc]
          · simp only [List.flatMap_append, List.flatMap_cons, List.flatMap_nil,
              List.append_nil, hEo, hT]
            rw [dump_new_plus, ihn, dump_new_space, slice_congr hm1]
            conv_rhs => rw [slice_split b (show j ≤ bj from by omega)
                (show bj ≤ b.length from by omega),
              slice_split b (show bj ≤ bj + size from by omega)
                (show bj + size ≤ b.length from by omega)]
            simp [List.append_assoc]
        · have hii : i = ai := by omega
          have hjj : j = bj := by omega
          subst hii
          subst hjj
          rw [if_neg hrb, if_neg hdel, if_neg hins,
            if_neg (show ¬(("" : String) ≠ "") from by decide)]
          constructor
          · simp only [List.flatMap_append, List.flatMap_nil, List.nil_append, hEo]
            rw [iho, dump_old_space]
            conv_rhs => rw [slice_split a (show i ≤ i + size from by omega)
                (show i + size ≤ a.length from by omega)]
          · simp only [List.flatMap_append, List.flatMap_nil, List.nil_append, hEo]
            rw [ihn, dump_new_space, slice_congr hm1]
            conv_rhs => rw [slice_split b (show j ≤ j + size from by omega)
                (show j + size ≤ b.length from by omega)]

/-- `Differ.compare` keeps both files intact: selecting the `'- '`/`'  '`
lines of the delta (prefixes dropped) yields `a` exactly, and selecting the
`'+ '`/`'  '` lines yields `b` exactly. -/
theorem compare_sides (a b : List String) :
    (compare a b).flatMap tagOld = a ∧ (compare a b).flatMap tagNew = b := by
  rw [compare_eq_opLines, get_opcodes]
  have hspec := get_matching_blocks_spec lineJunk (chainB lineJunk true b) a b
    (chainB_sound lineJunk true b)
  generalize hG : get_matching_blocks lineJunk (chainB lineJunk true b) a b = BL at hspec ⊢
  obtain ⟨hch, hbm, hend⟩ := hspec
  obtain ⟨ho, hn⟩ := opcodeFold_sides a b BL 0 0 hch hbm (endsAtFrom_of_endsAt hend 0 0)
  exact ⟨ho.trans (slice_all a), hn.trans (slice_all b)⟩

end Sides

end Difflib

namespace Cdiff

section RoundTrip

/-- A scan that starts outside an escape sequence copies escape-free text
verbatim. -/
theorem stripAnsiAux_clean_append (cs : List Char) (h : '\x1b' ∉ cs) (rest : List Char) :
    stripAnsiAux 0 (cs ++ rest) = cs ++ stripAnsiAux 0 rest := by
  induction cs with
  | nil => rfl
  | cons c cs ih =>
    have hc : ¬ c = '\x1b' := fun e => h (e ▸ List.mem_cons_self c cs)
    rw [List.cons_append]
    simp only [stripAnsiAux]
    rw [if_neg hc, ih (fun hm => h (List.mem_cons_of_mem _ hm)), List.cons_append]

/-- Stripping an escape-free line colorized cyan recovers the line. -/
theorem stripAnsi_colorize_cyan (l : String) (h : '\x1b' ∉ l.data) :
    stripAnsi (colorize l "cyan") = l := by
  show String.mk (stripAnsiAux 0 ('\x1b' :: '[' :: '3' :: '6' :: 'm' ::
    (l.data ++ ['\x1b', '[', '0', 'm']))) = l
  rw [show ∀ r, stripAnsiAux 0 ('\x1b' :: '[' :: '3' :: '6' :: 'm' :: r) =
      stripAnsiAux 0 r from fun r => rfl,
    stripAnsiAux_clean_append _ h,
    show stripAnsiAux 0 ['\x1b', '[', '0', 'm'] = [] from rfl, List.append_nil]

/-- Stripping an escape-free line colorized yellow recovers the line. -/
theorem stripAnsi_colorize_yellow (l : String) (h : '\x1b' ∉ l.data) :
    stripAnsi (colorize l "yellow") = l := by
  show String.mk (stripAnsiAux 0 ('\x1b' :: '[' :: '3' :: '3' :: 'm' ::
    (l.data ++ ['\x1b', '[', '0', 'm']))) = l
  rw [show ∀ r, stripAnsiAux 0 ('\x1b' :: '[' :: '3' :: '3' :: 'm' :: r) =
      stripAnsiAux 0 r from fun r => rfl,
    stripAnsiAux_clean_append _ h,
    show stripAnsiAux 0 ['\x1b', '[', '0', 'm'] = [] from rfl, List.append_nil]

/-- Stripping an escape-free line colorized lightblue recovers the line. -/
theorem stripAnsi_colorize_lightblue (l : String) (h : '\x1b' ∉ l.data) :
    stripAnsi (colorize l "lightblue") = l := by
  show String.mk (stripAnsiAux 0 ('\x1b' :: '[' :: '1' :: ';' :: '3' :: '4' :: 'm' ::
    (l.data ++ ['\x1b', '[', '0', 'm']))) = l
  rw [show ∀ r, stripAnsiAux 0 ('\x1b' :: '[' :: '1' :: ';' :: '3' :: '4' :: 'm' :: r) =
      stripAnsiAux 0 r from fun r => rfl,
    stripAnsiAux_clean_append _ h,
    show stripAnsiAux 0 ['\x1b', '[', '0', 'm'] = [] from rfl, List.append_nil]

/-- All skeleton lines of a `Diff` (headers, both paths, hunk headers)
satisfy `P`. -/
def DiffSrcLines (P : String → Prop) (d : Diff) : Prop :=
  (∀ l ∈ d.headers, P l) ∧ P d.old_path ∧ P d.new_path ∧
  ∀ hk ∈ d.hunks, P hk.hunk_header

/-- The same property threaded through the parser state. -/
def PStateSrc (P : String → Prop) (st : PState) : Prop :=
  (∀ l ∈ st.headers, P l) ∧ (∀ l, st.old_path = some l → P l) ∧
  (∀ l, st.new_path = some l → P l) ∧ (∀ hk ∈ st.hunks, P hk.hunk_header) ∧
  (∀ hk, st.hunk = some hk → P hk.hunk_header)

set_option maxHeartbeats 3000000 in
/-- Every skeleton line of every parsed `Diff` is one of the input lines:
any property of all input lines transfers to the headers, paths and hunk
headers of the output. -/
theorem parseUdiffFuel_src (P : String → Prop) :
    ∀ (fuel : Nat) (stream : List String) (st : PState) (ds : List Diff),
      (∀ l ∈ stream, P l) → PStateSrc P st →
      parseUdiffFuel fuel stream st = .ok ds →
      ∀ d ∈ ds, DiffSrcLines P d := by
  intro fuel
  induction fuel with
  | zero => intro stream st ds h0 h2 h; simp [parseUdiffFuel] at h
  | succ fuel ih =>
    intro stream st ds hstream h2 h
    match stream with
    | [] =>
      obtain ⟨hds, opv, npv, hks, hkv⟩ := st
      simp only [parseUdiffFuel] at h
      simp only [PStateSrc] at h2
      obtain ⟨p1, p2, p3, p4, p5⟩ := h2
      rcases opv with _ | op <;> rcases npv with _ | np <;> rcases hkv with _ | hk <;>
        dsimp only at h p1 p2 p3 p4 p5 <;>
        first
          | simp only [reduceCtorEq] at h
          | (split_ifs at h <;>
             first
               | simp only [reduceCtorEq] at h
               | (injection h with h'
                  subst h'
                  intro d hd
                  simp at hd))
          | (injection h with h'
             subst h'
             intro d hd
             rw [List.mem_singleton] at hd
             subst hd
             refine ⟨p1, p2 _ rfl, p3 _ rfl, ?_⟩
             intro hk' hm
             dsimp only at hm
             first
               | exact p4 hk' hm
               | (rcases List.mem_append.mp hm with hm' | hm'
                  · exact p4 hk' hm'
                  · rw [List.mem_singleton] at hm'
                    subst hm'
                    exact p5 _ rfl))
    | line :: rest =>
      obtain ⟨hds, opv, npv, hks, hkv⟩ := st
      simp only [parseUdiffFuel] at h
      simp only [PStateSrc] at h2
      obtain ⟨p1, p2, p3, p4, p5⟩ := h2
      rcases opv with _ | op <;> rcases npv with _ | np <;> rcases hkv with _ | hk <;>
        dsimp only at h p1 p2 p3 p4 p5 <;>
        split_ifs at h <;>
        first
          | simp only [reduceCtorEq] at h
          | exact ih _ _ _ (fun l hl => hstream l (List.mem_cons_of_mem _ hl))
              ⟨p1, p2, p3, p4, p5⟩ h
          | (refine ih _ _ _ (fun l hl => hstream l (List.mem_cons_of_mem _ hl))
               ⟨?_, p2, p3, p4, p5⟩ h
             intro l hl
             rcases List.mem_append.mp hl with hm | hm
             · exact p1 l hm
             · rw [List.mem_singleton] at hm
               subst hm
               exact hstream _ (List.mem_cons_self _ _))
          | (refine ih _ _ _ (fun l hl => hstream l (List.mem_cons_of_mem _ hl))
               ⟨p1, ?_, p3, p4, p5⟩ h
             intro l hl
             injection hl with e
             subst e
             exact hstream _ (List.mem_cons_self _ _))
          | (refine ih _ _ _ (fun l hl => hstream l (List.mem_cons_of_mem _ hl))
               ⟨p1, p2, ?_, p4, p5⟩ h
             intro l hl
             injection hl with e
             subst e
             exact hstream _ (List.mem_cons_self _ _))
          | (refine ih _ _ _ hstream ⟨p1, p2, p3, ?_, ?_⟩ h
             · intro hk' hm
               rcases List.mem_append.mp hm with hm' | hm'
               · exact p4 hk' hm'
               · rw [List.mem_singleton] at hm'
                 subst hm'
                 exact p5 _ rfl
             · intro hk' hhk'
               dsimp only at hhk'
               simp only [reduceCtorEq] at hhk')
          | (refine ih _ _ _ (fun l hl => hstream l (List.mem_cons_of_mem _ hl))
               ⟨p1, p2, p3, p4, ?_⟩ h
             intro hk' hhk'
             injection hhk' with e
             subst e
             exact hstream _ (List.mem_cons_self _ _))
          | (refine ih _ _ _ (fun l hl => hstream l (List.mem_cons_of_mem _ hl))
               ⟨p1, p2, p3, p4, ?_⟩ h
             intro hk' hhk'
             injection hhk' with e
             subst e
             exact p5 hk rfl)
          | (revert h
             cases hX : parseUdiffFuel fuel (line :: rest) emptyPState with
             | error e =>
               intro h
               simp only [Except.map, reduceCtorEq] at h
             | ok tail =>
               simp only [Except.map]
               intro h
               injection h with h'
               subst h'
               intro d hd
               rcases List.mem_cons.mp hd with rfl | hmem
               · refine ⟨p1, p2 _ rfl, p3 _ rfl, ?_⟩
                 intro hk' hm
                 dsimp only at hm
                 rcases List.mem_append.mp hm with hm' | hm'
                 · exact p4 hk' hm'
                 · rw [List.mem_singleton] at hm'
                   subst hm'
                   exact p5 _ rfl
               · exact ih _ _ _ hstream (by simp [PStateSrc, emptyPState]) hX d hmem)

/-- `parse`-level form of the skeleton-provenance lemma. -/
theorem parse_src (P : String → Prop) (stream : List String) (ds : List Diff)
    (hall : ∀ l ∈ stream, P l) (h : parse stream = .ok ds) :
    ∀ d ∈ ds, DiffSrcLines P d := by
  rw [parse_eval] at h
  split at h
  · exact parseUdiffFuel_src P _ _ _ _ hall (by simp [PStateSrc, emptyPState]) h
  · cases h

/-- Mapping a function into the per-hunk blocks of a flattened render. -/
theorem flatMap_map_congr {α β γ : Type} {l : List α} {f : α → List β} {g : β → γ}
    {w : α → List γ} (H : ∀ x ∈ l, (f x).map g = w x) :
    (l.flatMap f).map g = l.flatMap w := by
  induction l with
  | nil => rfl
  | cons a t ih =>
    rw [List.flatMap_cons, List.map_append, H a (List.mem_cons_self a t),
      ih (fun x hx => H x (List.mem_cons_of_mem a hx)), List.flatMap_cons]

end RoundTrip

section ClaimOne

/-- C1 (counterexample): the hunk `-a\n-c\n+b\n` renders (after stripping all
escape sequences) as `-a\n+b\n-c\n`: difflib pairs the first deleted line
with the inserted line as a replacement and moves the insertion before the
second deletion, so the original line order is not reproduced verbatim. -/
theorem c1_counterexample :
    (parse ["--- a\n", "+++ b\n", "@@ -1,2 +1 @@\n", "-a\n", "-c\n", "+b\n"]).toOption.map
        (fun ds => ds.flatMap (fun d => d.markup_traditional.map stripAnsi)) =
      some ["--- a\n", "+++ b\n", "@@ -1,2 +1 @@\n", "-a\n", "+b\n", "-c\n"] ∧
    (["--- a\n", "+++ b\n", "@@ -1,2 +1 @@\n", "-a\n", "+b\n", "-c\n"] : List String) ≠
      ["--- a\n", "+++ b\n", "@@ -1,2 +1 @@\n", "-a\n", "-c\n", "+b\n"] := by
  constructor
  · rw [parse_eval]
    simp only [Diff.markup_traditional, Hunk.mdiff, Difflib.mdiff_eval]
    rfl
  · decide

/-- C1 (amended): for every successfully parsed diff whose input lines are
free of escape characters, rendering with `markup_traditional` and stripping
the escape sequences yields the headers, the two path lines and each hunk
header verbatim in order, around the rendered hunk bodies; and for each hunk
the line delta that the renderer draws from (`Differ.compare` of the hunk's
pre-image and post-image text) contains exactly the pre-image as its
`'- '`/`'  '` lines in order and exactly the post-image as its `'+ '`/`'  '`
lines in order.  (The bodies themselves may regroup the original `-`/`+`
interleaving, see the counterexample.) -/
theorem c1_round_trip :
    ∀ (stream : List String) (ds : List Diff),
      parse stream = .ok ds →
      (∀ l ∈ stream, '\x1b' ∉ l.data) →
      ∀ d ∈ ds,
        (d.markup_traditional.map stripAnsi =
          d.headers ++ [d.old_path, d.new_path] ++
          d.hunks.flatMap (fun hk =>
            hk.get_header :: (hk.mdiff.flatMap markupTradPair).map stripAnsi)) ∧
        ∀ hk ∈ d.hunks,
          (Difflib.compare hk.get_old_text hk.get_new_text).flatMap Difflib.tagOld =
            hk.get_old_text ∧
          (Difflib.compare hk.get_old_text hk.get_new_text).flatMap Difflib.tagNew =
            hk.get_new_text := by
  intro stream ds hparse hclean d hd
  obtain ⟨hH, hOP, hNP, hHH⟩ := parse_src (fun l => '\x1b' ∉ l.data) stream ds hclean hparse d hd
  constructor
  · rw [Diff.markup_traditional, List.map_append, List.map_append]
    congr 1
    congr 1
    · calc (d.headers.map markup_header).map stripAnsi
          = d.headers.map (stripAnsi ∘ markup_header) := by rw [List.map_map]
        _ = d.headers.map id :=
            List.map_congr_left (fun l hl => stripAnsi_colorize_cyan l (hH l hl))
        _ = d.headers := List.map_id _
    · simp only [List.map_cons, List.map_nil, markup_old_path, markup_new_path]
      rw [stripAnsi_colorize_yellow _ hOP, stripAnsi_colorize_yellow _ hNP]
    · refine flatMap_map_congr ?_
      intro hk hm
      rw [List.map_cons]
      congr 1
      rw [markup_hunk_header]
      exact stripAnsi_colorize_lightblue _ (hHH hk hm)
  · intro hk _
    exact ⟨(Difflib.compare_sides hk.get_old_text hk.get_new_text).1,
      (Difflib.compare_sides hk.get_old_text hk.get_new_text).2⟩

/-- C1 (witness): the amended round-trip instantiated on the concrete patch
`--- a\n+++ b\n@@ -1 +1 @@\n-x\n+y\n`. -/
theorem c1_witness :
    (parse ["--- a\n", "+++ b\n", "@@ -1 +1 @@\n", "-x\n", "+y\n"] =
      .ok [⟨[], "--- a\n", "+++ b\n", [⟨"@@ -1 +1 @@\n", [('-', "x\n"), ('+', "y\n")]⟩]⟩]) ∧
    (∀ l ∈ (["--- a\n", "+++ b\n", "@@ -1 +1 @@\n", "-x\n", "+y\n"] : List String),
      '\x1b' ∉ l.data) ∧
    (((Diff.mk [] "--- a\n" "+++ b\n"
        [⟨"@@ -1 +1 @@\n", [('-', "x\n"), ('+', "y\n")]⟩]).markup_traditional.map stripAnsi =
      (Diff.mk [] "--- a\n" "+++ b\n"
        [⟨"@@ -1 +1 @@\n", [('-', "x\n"), ('+', "y\n")]⟩]).headers ++
      [(Diff.mk [] "--- a\n" "+++ b\n"
        [⟨"@@ -1 +1 @@\n", [('-', "x\n"), ('+', "y\n")]⟩]).old_path,
       (Diff.mk [] "--- a\n" "+++ b\n"
        [⟨"@@ -1 +1 @@\n", [('-', "x\n"), ('+', "y\n")]⟩]).new_path] ++
      (Diff.mk [] "--- a\n" "+++ b\n"
        [⟨"@@ -1 +1 @@\n", [('-', "x\n"), ('+', "y\n")]⟩]).hunks.flatMap (fun hk =>
          hk.get_header :: (hk.mdiff.flatMap markupTradPair).map stripAnsi)) ∧
     ∀ hk ∈ (Diff.mk [] "--- a\n" "+++ b\n"
        [⟨"@@ -1 +1 @@\n", [('-', "x\n"), ('+', "y\n")]⟩]).hunks,
       (Difflib.compare hk.get_old_text hk.get_new_text).flatMap Difflib.tagOld =
         hk.get_old_text ∧
       (Difflib.compare hk.get_old_text hk.get_new_text).flatMap Difflib.tagNew =
         hk.get_new_text) :=
  ⟨by rw [parse_eval]; rfl, by decide,
   c1_round_trip ["--- a\n", "+++ b\n", "@@ -1 +1 @@\n", "-x\n", "+y\n"]
     [⟨[], "--- a\n", "+++ b\n", [⟨"@@ -1 +1 @@\n", [('-', "x\n"), ('+', "y\n")]⟩]⟩]
     (by rw [parse_eval]; rfl) (by decide) _ (List.mem_singleton.mpr rfl)⟩

end ClaimOne

end Cdiff
